import Mathlib

/-! # Capture-and-encode pipeline of the logic analyzer firmware (`main.cc`)

A shallow embedding of `find_edge`, `process_samples`,
`DMA1_Channel4_IRQHandler` and the buffer reset of `start_capture`, and the
properties proved of them.

Conventions of the embedding.

* A pointer into `adc_fifo` is the word index relative to `&adc_fifo[0]`
  (a `Nat`); the capture memory is a total function `mem : Nat → Nat` from word
  index to sample word, so that reads past `end` are visible.
* A position in `signal_buffer.storage` is an `Int` offset relative to
  `&signal_buffer.storage[0]`, because the source computes `p[i - 1]` with a
  signed `i`.
* `uint64_t` values are `Nat` reduced modulo `2 ^ 64` where the source can
  wrap; `signaltime_t` values are reduced modulo `2 ^ SIGNALTIME_BITS`.
* `sizeof(signal_buffer.storage)` is the parameter `cap`: the declaration of
  `signal_buffer_t` is in a header that is not part of `main.cc`. The fields
  `bytes` and `last_value` are unbounded `Nat`: their widths are declared in
  that header too, and no statement of `main.cc` can wrap them while
  `bytes <= cap`.
* A run that ends in `crash_with_message(...); while(1);` is reported as
  `Exit.crashed` together with the state at that point.
-/

namespace DsoQuadLogic

/-! ## Constants -/

/-- Number of sample words in one half of `adc_fifo` (`uint32_t adc_fifo[256]`). -/
def ADC_FIFO_HALFSIZE : Nat := 256 * 4 / 4 / 2

/-- The edge mask of `process_samples`. -/
def mask : Nat := 0x00038080

/-- Modelled from the spec: the width of `signaltime_t`, the type of the counter
`count` and of `signal_buffer.last_duration`. Its declaration is in a header
that is not part of `main.cc`; the specification sizes the widest value
`(duration << 4) | level` at ten 7-bit groups, that is 64 bits. -/
def SIGNALTIME_BITS : Nat := 64

/-! ## Data model -/

/-- The fields of `signal_buffer` that `main.cc` reads and writes. -/
structure signal_buffer_t where
  last_duration : Nat
  bytes : Nat
  last_value : Nat
  storage : Int → Nat

/-- The reasons for which the firmware calls `crash_with_message` on the capture path. -/
inductive Fatal where
  | lost_sync
  | dma_transfer_error
  | overflow_in_htif
  | overflow_in_tcif
  deriving DecidableEq, Repr

/-- How a run of `process_samples` or of the interrupt handler ends. -/
inductive Exit where
  | done
  | throttled
  | crashed (why : Fatal)
  deriving DecidableEq, Repr

/-- The encoder state: the two function-local statics of `process_samples`, the
global `signal_buffer`, the enable bit of the capture interrupt, and a record
`stores` of every offset of `signal_buffer.storage` that has been stored to
(most recent first). `stores` is observation only: nothing reads it. -/
structure State where
  old : Nat
  count : Nat
  signal_buffer : signal_buffer_t
  irq_enabled : Bool
  stores : List Int

/-- The pending flags of DMA channel 4 in `DMA1->ISR`: transfer error,
half transfer, transfer complete. The handler only tests and clears single
flags, so the register is kept as three booleans; the bit masks
`DMA_ISR_TEIF4`, `DMA_ISR_HTIF4`, `DMA_ISR_TCIF4` are in a vendor header. -/
structure Flags where
  teif4 : Bool
  htif4 : Bool
  tcif4 : Bool
  deriving DecidableEq, Repr

/-! ## `find_edge` -/

/-- The unrolled loop `while (data < end) { four tests }` of `find_edge`.
The first argument bounds the number of iterations; with `end_ - data`
iterations allowed the bound is reached only when `data < end_` is already
false, where the source returns `end` as well. -/
def find_edge_unrolled (mem : Nat → Nat) (end_ mask old : Nat) : Nat → Nat → Nat
  | 0, _ => end_
  | n + 1, data =>
    if data < end_ then
      if mem data &&& mask ≠ old then data
      else if mem (data + 1) &&& mask ≠ old then data + 1
      else if mem (data + 2) &&& mask ≠ old then data + 2
      else if mem (data + 3) &&& mask ≠ old then data + 3
      else find_edge_unrolled mem end_ mask old n (data + 4)
    else end_

/-- The first loop of `find_edge`, `while (((uint32_t)data & 0x0F) !=
((uint32_t)adc_fifo & 0x0F))`, followed by the unrolled loop. The byte address
of word index `data` is `adc_fifo + 4 * data`, so the test is `data % 4 ≠ 0`
(see `align_test_iff`). Three iterations always reach a boundary, so the
iteration bound `3` is never the reason the loop stops. -/
def find_edge_head (mem : Nat → Nat) (end_ mask old : Nat) : Nat → Nat → Nat
  | 0, data => find_edge_unrolled mem end_ mask old (end_ - data) data
  | n + 1, data =>
    if data % 4 ≠ 0 then
      if mem data &&& mask ≠ old then data
      else find_edge_head mem end_ mask old n (data + 1)
    else find_edge_unrolled mem end_ mask old (end_ - data) data

/-- The function `find_edge(data, end, mask, old)`. -/
def find_edge (mem : Nat → Nat) (data end_ mask old : Nat) : Nat :=
  find_edge_head mem end_ mask old 3 data

/-! ## `process_samples` -/

/-- The statement `count += data - start` on a `signaltime_t`; the pointer
difference is signed. -/
def count_add (count data start : Nat) : Nat :=
  (((count : Int) + ((data : Int) - (start : Int))) % (2 ^ SIGNALTIME_BITS : Int)).toNat

/-- The loop `while (value_to_write) { p[i] = (value_to_write & 0x7F) | 0x80;
value_to_write >>= 7; i++; }`. It returns the storage, the final `i` and the
offsets stored to. A 64-bit value is zero after ten shifts by seven, so with
ten iterations allowed the bound is never the reason the loop stops. -/
def varint_loop (p : Int) :
    Nat → Nat → Nat → (Int → Nat) → List Int → (Int → Nat) × Nat × List Int
  | 0, _, i, storage, stores => (storage, i, stores)
  | n + 1, value_to_write, i, storage, stores =>
    if value_to_write ≠ 0 then
      varint_loop p n (value_to_write >>> 7) (i + 1)
        (Function.update storage (p + i) ((value_to_write &&& 0x7F) ||| 0x80))
        ((p + i) :: stores)
    else (storage, i, stores)

/-- The level bits taken from the edge sample (channels A to D). -/
def level_of (sample : Nat) : Nat :=
  (((0 ||| (if sample &&& 0x00000080 ≠ 0 then 1 else 0))
    ||| (if sample &&& 0x00008000 ≠ 0 then 2 else 0))
    ||| (if sample &&& 0x00010000 ≠ 0 then 4 else 0))
    ||| (if sample &&& 0x00020000 ≠ 0 then 8 else 0)

/-- The part of the body of the `for(;;)` loop of `process_samples` that writes
one record and prepares for the next edge (lines 120 to 141), run when the edge
sample is `sample` and `count` has been updated. The shift `count << 4` is
done in `signaltime_t`, the sum in `uint64_t`. -/
def write_record (sample : Nat) (s : State) : State :=
  let value_to_write :=
    (((s.count <<< 4) % 2 ^ SIGNALTIME_BITS) + s.signal_buffer.last_value) % 2 ^ 64
  let p : Int := s.signal_buffer.bytes
  let r := varint_loop p 10 value_to_write 0 s.signal_buffer.storage s.stores
  let i := r.2.1
  let last : Int := p + ((i : Int) - 1)
  { old := sample &&& mask
    count := 0
    signal_buffer :=
      { last_duration := s.signal_buffer.last_duration
        bytes := s.signal_buffer.bytes + i
        last_value := level_of sample
        storage := Function.update r.1 last (r.1 last &&& 0x7F) }
    irq_enabled := s.irq_enabled
    stores := last :: r.2.2 }

/-- The `for(;;)` loop of `process_samples`. The first argument bounds the
number of iterations; `none` means the bound was reached. -/
def process_loop (cap : Nat) (mem : Nat → Nat) (end_ : Nat) :
    Nat → Nat → State → Option (Exit × State)
  | 0, _, _ => none
  | n + 1, data, s =>
    let start := data
    let data := find_edge mem data end_ mask s.old
    let s := { s with count := count_add s.count data start }
    if data = end_ then
      some (Exit.done,
        { s with signal_buffer := { s.signal_buffer with last_duration := s.count } })
    else if mem data &&& 0xFF000000 ≠ 0 then
      some (Exit.crashed Fatal.lost_sync, s)
    else if cap < s.signal_buffer.bytes + 10 then
      some (Exit.throttled, { s with irq_enabled := false })
    else
      process_loop cap mem end_ n data (write_record (mem data) s)

/-- The function `process_samples(data)`. Each iteration of its loop but the
last one ends at a different sample of the half, so `ADC_FIFO_HALFSIZE + 1`
iterations are enough (`process_samples_returns`). -/
def process_samples (cap : Nat) (mem : Nat → Nat) (data : Nat) (s : State) :
    Option (Exit × State) :=
  process_loop cap mem (data + ADC_FIFO_HALFSIZE) (ADC_FIFO_HALFSIZE + 1) data s

/-! ## `start_capture` and the interrupt handler -/

/-- What `start_capture` does to the encoder state: it resets
`signal_buffer.last_duration` and `signal_buffer.bytes` and enables the
interrupt of DMA channel 4. -/
def start_capture (s : State) : State :=
  { s with
    signal_buffer := { s.signal_buffer with last_duration := 0, bytes := 0 }
    irq_enabled := true }

/-- The state at power-up: the statics of `process_samples` and the scalar
fields of `signal_buffer` are zero and the capture interrupt is not enabled.
The content of the storage array and of the memory around it is `storage`. -/
def initial_state (storage : Int → Nat) : State :=
  { old := 0
    count := 0
    signal_buffer := { last_duration := 0, bytes := 0, last_value := 0, storage := storage }
    irq_enabled := false
    stores := [] }

/-- Flags raised by the hardware are added to the pending ones. -/
def Flags.raise (f hw : Flags) : Flags :=
  { teif4 := f.teif4 || hw.teif4, htif4 := f.htif4 || hw.htif4, tcif4 := f.tcif4 || hw.tcif4 }

/-- The handler `DMA1_Channel4_IRQHandler`. `isr` is `DMA1->ISR` as the
dispatching tests read it, `hw1` the flags the hardware raises while
`process_samples` runs, `hw2` those it raises between the write to
`DMA1->IFCR` and the last read of `DMA1->ISR`. The result is how the handler
ends, the flags then pending, and the encoder state. -/
def DMA1_Channel4_IRQHandler (cap : Nat) (mem : Nat → Nat) (isr hw1 hw2 : Flags)
    (s : State) : Option (Exit × Flags × State) :=
  if isr.teif4 then
    some (Exit.crashed Fatal.dma_transfer_error, isr, s)
  else if isr.htif4 then
    match process_samples cap mem 0 s with
    | none => none
    | some (Exit.crashed why, s1) => some (Exit.crashed why, isr.raise hw1, s1)
    | some (_, s1) =>
      let isr1 := Flags.raise { isr.raise hw1 with htif4 := false } hw2
      if isr1.tcif4 then some (Exit.crashed Fatal.overflow_in_htif, isr1, s1)
      else some (Exit.done, isr1, s1)
  else if isr.tcif4 then
    match process_samples cap mem ADC_FIFO_HALFSIZE s with
    | none => none
    | some (Exit.crashed why, s1) => some (Exit.crashed why, isr.raise hw1, s1)
    | some (_, s1) =>
      let isr1 := Flags.raise { isr.raise hw1 with tcif4 := false } hw2
      if isr1.htif4 then some (Exit.crashed Fatal.overflow_in_tcif, isr1, s1)
      else some (Exit.done, isr1, s1)
  else some (Exit.done, isr, s)

/-- The states the encoder can be in between two activations: the power-up
state, the state a returning `process_samples` leaves (having reached the end
of a half, or throttled), and the state after `start_capture`. -/
inductive Reachable (cap : Nat) : State → Prop where
  | init (storage : Int → Nat) : Reachable cap (initial_state storage)
  | first_half (mem : Nat → Nat) (s s1 : State) (e : Exit) :
      Reachable cap s → process_samples cap mem 0 s = some (e, s1) →
      (e = Exit.done ∨ e = Exit.throttled) → Reachable cap s1
  | second_half (mem : Nat → Nat) (s s1 : State) (e : Exit) :
      Reachable cap s → process_samples cap mem ADC_FIFO_HALFSIZE s = some (e, s1) →
      (e = Exit.done ∨ e = Exit.throttled) → Reachable cap s1
  | restart (s : State) : Reachable cap s → Reachable cap (start_capture s)

/-! ## The reference decoder -/

/-- The reference decoder of the wire format, as the specification words it:
little-endian base 128, 7 data bits per byte, read until a byte with the high
bit clear. It yields the values read; `acc` and `shift` are the value and the
bit position of the record being read. -/
def reference_decode_values : List Nat → Nat → Nat → List Nat
  | [], _, _ => []
  | b :: bs, acc, shift =>
    if b &&& 0x80 ≠ 0 then
      reference_decode_values bs (acc ||| ((b &&& 0x7F) <<< shift)) (shift + 7)
    else (acc ||| (b <<< shift)) :: reference_decode_values bs 0 0

/-- The reference decoder followed by the split of each value into the duration
`value >> 4` and the level `value & 15`. -/
def reference_decode (bs : List Nat) : List (Nat × Nat) :=
  (reference_decode_values bs 0 0).map (fun v => (v >>> 4, v &&& 15))

/-- The bytes `storage[lo .. hi)`. -/
def storage_slice (storage : Int → Nat) (lo hi : Nat) : List Nat :=
  (List.range (hi - lo)).map (fun (j : Nat) => storage ((lo : Int) + (j : Int)))

/-- The bytes the serialization of `process_samples` appends for one
`(duration, level)` pair, written to an empty buffer. -/
def encode_record (d : Nat × Nat) : List Nat :=
  let s := write_record 0
    { old := 0, count := d.1
      signal_buffer := { last_duration := 0, bytes := 0, last_value := d.2, storage := fun _ => 0 }
      irq_enabled := true, stores := [] }
  storage_slice s.signal_buffer.storage 0 s.signal_buffer.bytes

/-- The byte string the encoder produces for a sequence of pairs. -/
def encode_records (ds : List (Nat × Nat)) : List Nat :=
  (ds.map encode_record).flatten

/-! ## Predicates used in the statements -/

/-- The position `r` is the first one in `[data, end_)` whose sample differs from `old`
under `mask`, or `end_` when there is none. -/
def FirstEdge (mem : Nat → Nat) (data end_ mask old r : Nat) : Prop :=
  data ≤ r ∧ r ≤ end_ ∧ (∀ j, data ≤ j → j < r → mem j &&& mask = old) ∧
    (r < end_ → mem r &&& mask ≠ old)


/-- The bytes of a record from the byte `prev` on, where `prev` has been stored
with its continuation flag and `v` is what is left of the value: the flag of
the last byte is cleared. -/
def tail_bytes : Nat → Nat → Nat → List Nat
  | 0, prev, _ => [prev &&& 0x7F]
  | n + 1, prev, v =>
    if v ≠ 0 then prev :: tail_bytes n ((v &&& 0x7F) ||| 0x80) (v >>> 7)
    else [prev &&& 0x7F]

/-- The bytes that `write_record` appends for the 64-bit value `v`; none for `v = 0`. -/
def record_bytes (v : Nat) : List Nat :=
  if v ≠ 0 then tail_bytes 9 ((v &&& 0x7F) ||| 0x80) (v >>> 7) else []

/-- The byte before the cursor, when there is one, has its continuation flag clear. -/
def CursorClosed (s : State) : Prop :=
  0 < s.signal_buffer.bytes → s.signal_buffer.storage ((s.signal_buffer.bytes : Int) - 1) < 128

/-- The 64-bit value `write_record` serializes in state `s`. -/
def value_to_write (s : State) : Nat :=
  (((s.count <<< 4) % 2 ^ SIGNALTIME_BITS) + s.signal_buffer.last_value) % 2 ^ 64

/-- The storage after the loop and the final `p[i - 1] &= 0x7F`. -/
def closed_storage (p : Int) (n v i : Nat) (st : Int → Nat) (log : List Int) : Int → Nat :=
  Function.update (varint_loop p n v i st log).1
    (p + (((varint_loop p n v i st log).2.1 : Int) - 1))
    ((varint_loop p n v i st log).1 (p + (((varint_loop p n v i st log).2.1 : Int) - 1)) &&& 0x7F)

/-- The state after `count += data - start`, where `r` is the new `data`. -/
def counted (s : State) (r start : Nat) : State :=
  { s with count := count_add s.count r start }

/-- The state after `signal_buffer.last_duration = count`. -/
def finished (s : State) : State :=
  { s with signal_buffer := { s.signal_buffer with last_duration := s.count } }

/-- The state after `NVIC_DisableIRQ(DMA1_Channel4_IRQn)`. -/
def irq_disabled (s : State) : State :=
  { s with irq_enabled := false }

/-! ## Facts about `find_edge` -/

/-- The alignment test of `find_edge` on byte addresses is a test on the word index. -/
theorem align_test_iff (adc_fifo data : Nat) :
    ((adc_fifo + 4 * data) &&& 0x0F ≠ adc_fifo &&& 0x0F) ↔ data % 4 ≠ 0 := by
  have h : ∀ x : Nat, x &&& 0x0F = x % 16 := fun x => Nat.and_pow_two_sub_one_eq_mod x 4
  rw [h, h]
  omega

theorem FirstEdge.unique {mem mem1 : Nat → Nat} {data end_ mask old r r1 : Nat}
    (hmem : ∀ j, j < end_ → mem1 j = mem j)
    (h : FirstEdge mem data end_ mask old r) (h1 : FirstEdge mem1 data end_ mask old r1) :
    r1 = r := by
  obtain ⟨h_lo, h_hi, h_eq, h_ne⟩ := h
  obtain ⟨g_lo, g_hi, g_eq, g_ne⟩ := h1
  rcases Nat.lt_trichotomy r1 r with hlt | heq | hgt
  · have := g_ne (by omega)
    rw [hmem r1 (by omega)] at this
    exact absurd (h_eq r1 g_lo hlt) this
  · exact heq
  · have := g_eq r h_lo hgt
    rw [hmem r (by omega)] at this
    exact absurd this (h_ne (by omega))

theorem find_edge_unrolled_spec (mem : Nat → Nat) (end_ mask old : Nat) (hend : end_ % 4 = 0) :
    ∀ n data, data % 4 = 0 → data ≤ end_ → end_ - data ≤ n →
      FirstEdge mem data end_ mask old (find_edge_unrolled mem end_ mask old n data) := by
  intro n
  induction n with
  | zero =>
    intro data _ hle hn
    show FirstEdge mem data end_ mask old end_
    exact ⟨hle, le_refl _, fun j h1 h2 => by omega, fun h => by omega⟩
  | succ n ih =>
    intro data hal hle hn
    unfold find_edge_unrolled
    by_cases hlt : data < end_
    · rw [if_pos hlt]
      by_cases h0 : mem data &&& mask ≠ old
      · rw [if_pos h0]
        exact ⟨le_refl _, hle, fun j h1 h2 => by omega, fun _ => h0⟩
      rw [if_neg h0]
      by_cases h1 : mem (data + 1) &&& mask ≠ old
      · rw [if_pos h1]
        refine ⟨by omega, by omega, fun j hj1 hj2 => ?_, fun _ => h1⟩
        have : j = data := by omega
        subst this
        exact not_not.mp h0
      rw [if_neg h1]
      by_cases h2 : mem (data + 2) &&& mask ≠ old
      · rw [if_pos h2]
        refine ⟨by omega, by omega, fun j hj1 hj2 => ?_, fun _ => h2⟩
        have : j = data ∨ j = data + 1 := by omega
        rcases this with rfl | rfl
        · exact not_not.mp h0
        · exact not_not.mp h1
      rw [if_neg h2]
      by_cases h3 : mem (data + 3) &&& mask ≠ old
      · rw [if_pos h3]
        refine ⟨by omega, by omega, fun j hj1 hj2 => ?_, fun _ => h3⟩
        have : j = data ∨ j = data + 1 ∨ j = data + 2 := by omega
        rcases this with rfl | rfl | rfl
        · exact not_not.mp h0
        · exact not_not.mp h1
        · exact not_not.mp h2
      rw [if_neg h3]
      obtain ⟨a, b, c, d⟩ := ih (data + 4) (by omega) (by omega) (by omega)
      refine ⟨by omega, b, fun j hj1 hj2 => ?_, d⟩
      by_cases hj : data + 4 ≤ j
      · exact c j hj hj2
      · have : j = data ∨ j = data + 1 ∨ j = data + 2 ∨ j = data + 3 := by omega
        rcases this with rfl | rfl | rfl | rfl
        · exact not_not.mp h0
        · exact not_not.mp h1
        · exact not_not.mp h2
        · exact not_not.mp h3
    · rw [if_neg hlt]
      exact ⟨hle, le_refl _, fun j h1 h2 => by omega, fun h => by omega⟩

theorem find_edge_head_spec (mem : Nat → Nat) (end_ mask old : Nat) (hend : end_ % 4 = 0) :
    ∀ n data, data ≤ end_ → (4 - data % 4) % 4 ≤ n →
      FirstEdge mem data end_ mask old (find_edge_head mem end_ mask old n data) := by
  intro n
  induction n with
  | zero =>
    intro data hle hn
    unfold find_edge_head
    exact find_edge_unrolled_spec mem end_ mask old hend _ data (by omega) hle (le_refl _)
  | succ n ih =>
    intro data hle hn
    unfold find_edge_head
    by_cases hal : data % 4 ≠ 0
    · rw [if_pos hal]
      by_cases h0 : mem data &&& mask ≠ old
      · rw [if_pos h0]
        exact ⟨le_refl _, hle, fun j h1 h2 => by omega, fun _ => h0⟩
      rw [if_neg h0]
      obtain ⟨a, b, c, d⟩ := ih (data + 1) (by omega) (by omega)
      refine ⟨by omega, b, fun j hj1 hj2 => ?_, d⟩
      by_cases hj : data + 1 ≤ j
      · exact c j hj hj2
      · have : j = data := by omega
        subst this
        exact not_not.mp h0
    · rw [if_neg hal]
      exact find_edge_unrolled_spec mem end_ mask old hend _ data (by omega) hle (le_refl _)

/-- With `end` on a four-word boundary, `find_edge` finds the first edge in `[data, end)`. -/
theorem find_edge_spec (mem : Nat → Nat) (data end_ mask old : Nat) (hend : end_ % 4 = 0)
    (hle : data ≤ end_) : FirstEdge mem data end_ mask old (find_edge mem data end_ mask old) :=
  find_edge_head_spec mem end_ mask old hend 3 data hle (by omega)


/-! ## The iteration bounds are never what stops a loop -/

/-- With at least `end_ - data` iterations allowed the unrolled loop gives the same result. -/
theorem find_edge_unrolled_bound (mem : Nat → Nat) (end_ msk old : Nat) :
    ∀ n m data, end_ - data ≤ n → end_ - data ≤ m →
      find_edge_unrolled mem end_ msk old n data = find_edge_unrolled mem end_ msk old m data := by
  intro n
  induction n with
  | zero =>
    intro m data hn _
    cases m with
    | zero => rfl
    | succ m => simp only [find_edge_unrolled, if_neg (show ¬ data < end_ by omega)]
  | succ n ih =>
    intro m data hn hm
    cases m with
    | zero => simp only [find_edge_unrolled, if_neg (show ¬ data < end_ by omega)]
    | succ m =>
      simp only [find_edge_unrolled]
      by_cases hlt : data < end_
      · rw [if_pos hlt, if_pos hlt, ih m (data + 4) (by omega) (by omega)]
      · rw [if_neg hlt, if_neg hlt]

/-- The unrolled loop of `find_edge` satisfies the equation of the source loop
`while (data < end) { four tests; }  return end;`. -/
theorem find_edge_unrolled_eq (mem : Nat → Nat) (end_ msk old data : Nat) :
    find_edge_unrolled mem end_ msk old (end_ - data) data =
      if data < end_ then
        if mem data &&& msk ≠ old then data
        else if mem (data + 1) &&& msk ≠ old then data + 1
        else if mem (data + 2) &&& msk ≠ old then data + 2
        else if mem (data + 3) &&& msk ≠ old then data + 3
        else find_edge_unrolled mem end_ msk old (end_ - (data + 4)) (data + 4)
      else end_ := by
  by_cases hlt : data < end_
  · obtain ⟨n, hn⟩ : ∃ n, end_ - data = n + 1 := ⟨end_ - data - 1, by omega⟩
    rw [hn]
    simp only [find_edge_unrolled]
    rw [find_edge_unrolled_bound mem end_ msk old n (end_ - (data + 4)) (data + 4) (by omega)
      (le_refl _)]
  · rw [if_neg hlt]
    cases h : end_ - data with
    | zero => rfl
    | succ n => simp only [find_edge_unrolled, if_neg hlt]

/-- With enough iterations to reach a four-word boundary the first loop gives the same result. -/
theorem find_edge_head_bound (mem : Nat → Nat) (end_ msk old : Nat) :
    ∀ n m data, (4 - data % 4) % 4 ≤ n → (4 - data % 4) % 4 ≤ m →
      find_edge_head mem end_ msk old n data = find_edge_head mem end_ msk old m data := by
  intro n
  induction n with
  | zero =>
    intro m data hn _
    cases m with
    | zero => rfl
    | succ m => simp only [find_edge_head, if_neg (show ¬ data % 4 ≠ 0 by omega)]
  | succ n ih =>
    intro m data hn hm
    cases m with
    | zero => simp only [find_edge_head, if_neg (show ¬ data % 4 ≠ 0 by omega)]
    | succ m =>
      simp only [find_edge_head]
      by_cases hal : data % 4 ≠ 0
      · rw [if_pos hal, if_pos hal, ih m (data + 1) (by omega) (by omega)]
      · rw [if_neg hal, if_neg hal]

/-- The function `find_edge` satisfies the equation of the source: while `data`
is off the boundary test one sample and go on, then run the unrolled loop. -/
theorem find_edge_eq_source (mem : Nat → Nat) (data end_ msk old : Nat) :
    find_edge mem data end_ msk old =
      if data % 4 ≠ 0 then
        if mem data &&& msk ≠ old then data else find_edge mem (data + 1) end_ msk old
      else find_edge_unrolled mem end_ msk old (end_ - data) data := by
  have step : find_edge_head mem end_ msk old (2 + 1) data =
      if data % 4 ≠ 0 then
        if mem data &&& msk ≠ old then data else find_edge_head mem end_ msk old 2 (data + 1)
      else find_edge_unrolled mem end_ msk old (end_ - data) data := rfl
  show find_edge_head mem end_ msk old (2 + 1) data =
    if data % 4 ≠ 0 then
      if mem data &&& msk ≠ old then data else find_edge_head mem end_ msk old 3 (data + 1)
    else find_edge_unrolled mem end_ msk old (end_ - data) data
  rw [step]
  by_cases hal : data % 4 ≠ 0
  · rw [if_pos hal, if_pos hal,
      find_edge_head_bound mem end_ msk old 2 3 (data + 1) (by omega) (by omega)]
  · rw [if_neg hal, if_neg hal]

/-- A value below `128 ^ n` is exhausted within `n` iterations of the
serialization loop: allowing more changes nothing. In `write_record` the value
is below `2 ^ 64` and ten iterations are allowed. -/
theorem varint_loop_bound (p : Int) :
    ∀ (n m v i : Nat) (st : Int → Nat) (log : List Int), v < 128 ^ n →
      varint_loop p (n + m) v i st log = varint_loop p n v i st log := by
  intro n
  induction n with
  | zero =>
    intro m v i st log hv
    have hv0 : v = 0 := by simpa using hv
    subst hv0
    cases m <;> simp [varint_loop]
  | succ n ih =>
    intro m v i st log hv
    have e : n + 1 + m = (n + m) + 1 := by omega
    rw [e]
    simp only [varint_loop]
    by_cases h0 : v ≠ 0
    · rw [if_pos h0, if_pos h0]
      apply ih
      rw [Nat.shiftRight_eq_div_pow]
      apply Nat.div_lt_of_lt_mul
      rw [pow_succ] at hv
      norm_num
      omega
    · rw [if_neg h0, if_neg h0]

/-- More iterations allowed do not change a result of the loop of `process_samples`. -/
theorem process_loop_bound (cap : Nat) (mem : Nat → Nat) (end_ : Nat) :
    ∀ (n data : Nat) (s : State) (r : Exit × State),
      process_loop cap mem end_ n data s = some r →
      process_loop cap mem end_ (n + 1) data s = some r := by
  intro n
  induction n with
  | zero => intro data s r h; simp [process_loop] at h
  | succ n ih =>
    intro data s r h
    rw [process_loop] at h ⊢
    simp only at h ⊢
    split_ifs at h ⊢ with h1 h2 h3
    · exact h
    · exact h
    · exact h
    · exact ih _ _ _ h
/-! ## Facts about bytes and slices -/

theorem and_7F_of_lt {x : Nat} (h : x < 128) : x &&& 0x7F = x := by
  have := Nat.and_pow_two_sub_one_eq_mod x 7
  norm_num at this
  rw [this]
  exact Nat.mod_eq_of_lt h

theorem and_7F_lt (x : Nat) : x &&& 0x7F < 128 := by
  have := Nat.and_pow_two_sub_one_eq_mod x 7
  norm_num at this
  rw [this]
  exact Nat.mod_lt _ (by norm_num)

theorem flagged_byte (v : Nat) :
    ((v &&& 0x7F) ||| 0x80) &&& 0x80 ≠ 0 ∧ ((v &&& 0x7F) ||| 0x80) &&& 0x7F = v &&& 0x7F := by
  have h : ∀ m < 128, (m ||| 128) &&& 128 ≠ 0 ∧ (m ||| 128) &&& 127 = m := by decide
  exact h _ (and_7F_lt v)

theorem and_80_of_lt : ∀ x < 128, x &&& 0x80 = 0 := by decide

theorem split_groups (v t : Nat) :
    ((v &&& 0x7F) <<< t) ||| ((v >>> 7) <<< (t + 7)) = v <<< t := by
  apply Nat.eq_of_testBit_eq
  intro i
  have h7 : (0x7F : Nat) = 2 ^ 7 - 1 := by norm_num
  rw [h7]
  simp only [Nat.testBit_or, Nat.testBit_shiftLeft, Nat.testBit_shiftRight, Nat.testBit_and,
    Nat.testBit_two_pow_sub_one]
  by_cases h1 : t ≤ i
  · by_cases h2 : t + 7 ≤ i
    · have e : 7 + (i - (t + 7)) = i - t := by omega
      have h3 : ¬ (i - t < 7) := by omega
      simp [h1, h2, e, h3]
    · have h3 : i - t < 7 := by omega
      simp [h1, h2, h3]
  · have h2 : ¬ (t + 7 ≤ i) := by omega
    simp [h1, h2]

theorem storage_slice_length (st : Int → Nat) (lo hi : Nat) :
    (storage_slice st lo hi).length = hi - lo := by
  simp [storage_slice]

theorem storage_slice_succ (st : Int → Nat) (lo hi : Nat) (h : lo ≤ hi) :
    storage_slice st lo (hi + 1) = storage_slice st lo hi ++ [st (hi : Int)] := by
  unfold storage_slice
  have e : hi + 1 - lo = (hi - lo) + 1 := by omega
  rw [e, List.range_succ, List.map_append]
  have e2 : (lo : Int) + ((hi - lo : Nat) : Int) = (hi : Int) := by omega
  simp [e2]

theorem storage_slice_congr (st st1 : Int → Nat) (lo hi : Nat)
    (h : ∀ j : Nat, lo ≤ j → j < hi → st1 (j : Int) = st (j : Int)) :
    storage_slice st1 lo hi = storage_slice st lo hi := by
  unfold storage_slice
  apply List.map_congr_left
  intro j hj
  have hj1 : j < hi - lo := List.mem_range.mp hj
  have := h (lo + j) (by omega) (by omega)
  simpa using this

theorem storage_slice_self (st : Int → Nat) (lo : Nat) : storage_slice st lo lo = [] := by
  simp [storage_slice]

/-! ## Facts about the serialization of one record -/

theorem varint_loop_zero (p : Int) (n i : Nat) (st : Int → Nat) (log : List Int) :
    varint_loop p n 0 i st log = (st, i, log) := by
  cases n <;> simp [varint_loop]

theorem varint_loop_succ (p : Int) (n v i : Nat) (st : Int → Nat) (log : List Int) (hv : v ≠ 0) :
    varint_loop p (n + 1) v i st log =
      varint_loop p n (v >>> 7) (i + 1)
        (Function.update st (p + i) ((v &&& 0x7F) ||| 0x80)) ((p + i) :: log) := by
  simp [varint_loop, hv]

/-- The number of bytes the loop stores is never negative: `i` only grows. -/
theorem varint_loop_le (p : Int) : ∀ (n v i : Nat) (st : Int → Nat) (log : List Int),
    i ≤ (varint_loop p n v i st log).2.1 ∧ (varint_loop p n v i st log).2.1 ≤ i + n := by
  intro n
  induction n with
  | zero => intro v i st log; simp [varint_loop]
  | succ n ih =>
    intro v i st log
    by_cases hv : v ≠ 0
    · rw [varint_loop_succ p n v i st log hv]
      have := ih (v >>> 7) (i + 1) (Function.update st (p + i) ((v &&& 0x7F) ||| 0x80))
        ((p + i) :: log)
      omega
    · have : v = 0 := not_not.mp hv
      subst this
      rw [varint_loop_zero]
      simp

theorem closed_storage_slice (b : Nat) (lo : Nat) :
    ∀ (n v i k : Nat) (st : Int → Nat) (log : List Int), b + i = k + 1 → lo ≤ k →
      storage_slice (closed_storage (b : Int) n v i st log) lo
          (b + (varint_loop (b : Int) n v i st log).2.1) =
        storage_slice st lo k ++ tail_bytes n (st (k : Int)) v := by
  intro n
  induction n with
  | zero =>
    intro v i k st log hk hlo
    have e2 : (b : Int) + ((i : Int) - 1) = (k : Int) := by omega
    simp only [closed_storage, varint_loop, tail_bytes]
    rw [e2, hk, storage_slice_succ _ _ _ hlo, Function.update_same]
    congr 1
    apply storage_slice_congr
    intro j h1 h2
    apply Function.update_noteq
    omega
  | succ n ih =>
    intro v i k st log hk hlo
    by_cases hv : v ≠ 0
    · have e3 : (b : Int) + (i : Int) = ((k + 1 : Nat) : Int) := by omega
      have key := ih (v >>> 7) (i + 1) (k + 1)
        (Function.update st ((b : Int) + i) ((v &&& 0x7F) ||| 0x80)) (((b : Int) + i) :: log)
        (by omega) (by omega)
      simp only [closed_storage] at key ⊢
      rw [varint_loop_succ _ n v i st log hv, key]
      rw [storage_slice_succ _ _ _ hlo, e3, Function.update_same]
      have e4 : storage_slice (Function.update st (((k + 1 : Nat) : Int)) ((v &&& 0x7F) ||| 0x80))
          lo k = storage_slice st lo k := by
        apply storage_slice_congr
        intro j h1 h2
        apply Function.update_noteq
        omega
      have e5 : Function.update st (((k + 1 : Nat) : Int)) ((v &&& 0x7F) ||| 0x80) (k : Int)
          = st (k : Int) := by
        apply Function.update_noteq
        omega
      rw [e4, e5]
      simp [tail_bytes, hv]
    · have hv0 : v = 0 := not_not.mp hv
      subst hv0
      have e2 : (b : Int) + ((i : Int) - 1) = (k : Int) := by omega
      simp only [closed_storage, varint_loop_zero, tail_bytes]
      rw [e2, hk, storage_slice_succ _ _ _ hlo, Function.update_same]
      simp only [ne_eq, not_true_eq_false, if_false]
      congr 1
      apply storage_slice_congr
      intro j h1 h2
      apply Function.update_noteq
      omega

theorem tail_bytes_decode (rest : List Nat) :
    ∀ (n prev v acc sh : Nat), prev &&& 0x80 ≠ 0 → v < 128 ^ n →
      reference_decode_values (tail_bytes n prev v ++ rest) acc sh =
        ((acc ||| ((prev &&& 0x7F) <<< sh)) ||| (v <<< (sh + 7))) :: reference_decode_values rest 0 0 := by
  intro n
  induction n with
  | zero =>
    intro prev v acc sh hp hv
    have hv0 : v = 0 := by simpa using hv
    subst hv0
    simp [tail_bytes, reference_decode_values, and_80_of_lt _ (and_7F_lt prev)]
  | succ n ih =>
    intro prev v acc sh hp hv
    by_cases hv0 : v ≠ 0
    · have hlt : v >>> 7 < 128 ^ n := by
        rw [Nat.shiftRight_eq_div_pow]
        apply Nat.div_lt_of_lt_mul
        rw [pow_succ] at hv
        norm_num
        omega
      have hb := flagged_byte v
      have key := ih ((v &&& 0x7F) ||| 0x80) (v >>> 7)
        (acc ||| ((prev &&& 0x7F) <<< sh)) (sh + 7) hb.1 hlt
      rw [hb.2] at key
      simp only [tail_bytes, if_pos hv0, List.cons_append, reference_decode_values, if_pos hp]
      rw [key, Nat.or_assoc (acc ||| (prev &&& 0x7F) <<< sh), split_groups]
    · have hv1 : v = 0 := not_not.mp hv0
      subst hv1
      simp [tail_bytes, reference_decode_values, and_80_of_lt _ (and_7F_lt prev)]

theorem record_bytes_decode (rest : List Nat) (v : Nat) (hv : v ≠ 0) (hlt : v < 2 ^ 64) :
    reference_decode_values (record_bytes v ++ rest) 0 0 = v :: reference_decode_values rest 0 0 := by
  have hb := flagged_byte v
  have h9 : v >>> 7 < 128 ^ 9 := by
    rw [Nat.shiftRight_eq_div_pow]
    apply Nat.div_lt_of_lt_mul
    norm_num at hlt ⊢
    omega
  have key := tail_bytes_decode rest 9 ((v &&& 0x7F) ||| 0x80) (v >>> 7) 0 0 hb.1 h9
  rw [hb.2] at key
  have s := split_groups v 0
  simp only [Nat.shiftLeft_zero, Nat.zero_add] at s
  simp only [record_bytes, if_pos hv]
  rw [key]
  simp only [Nat.zero_or, Nat.shiftLeft_zero, Nat.zero_add]
  rw [s]
theorem varint_loop_frame (p : Int) : ∀ (n v i : Nat) (st : Int → Nat) (log : List Int) (x : Int),
    x < p + i → (varint_loop p n v i st log).1 x = st x := by
  intro n
  induction n with
  | zero => intro v i st log x _; simp [varint_loop]
  | succ n ih =>
    intro v i st log x hx
    by_cases hv : v ≠ 0
    · rw [varint_loop_succ p n v i st log hv, ih _ _ _ _ x (by push_cast; omega)]
      apply Function.update_noteq
      omega
    · have : v = 0 := not_not.mp hv
      subst this
      rw [varint_loop_zero]

theorem varint_loop_count (p : Int) : ∀ (n v i prev : Nat) (st : Int → Nat) (log : List Int),
    (varint_loop p n v i st log).2.1 + 1 = i + (tail_bytes n prev v).length := by
  intro n
  induction n with
  | zero => intro v i prev st log; simp [varint_loop, tail_bytes]
  | succ n ih =>
    intro v i prev st log
    by_cases hv : v ≠ 0
    · rw [varint_loop_succ p n v i st log hv]
      have := ih (v >>> 7) (i + 1) ((v &&& 0x7F) ||| 0x80)
        (Function.update st (p + i) ((v &&& 0x7F) ||| 0x80)) ((p + i) :: log)
      simp only [tail_bytes, if_pos hv, List.length_cons]
      omega
    · have : v = 0 := not_not.mp hv
      subst this
      rw [varint_loop_zero]
      simp [tail_bytes]

theorem tail_bytes_length : ∀ (n prev v : Nat),
    1 ≤ (tail_bytes n prev v).length ∧ (tail_bytes n prev v).length ≤ n + 1 := by
  intro n
  induction n with
  | zero => intro prev v; simp [tail_bytes]
  | succ n ih =>
    intro prev v
    by_cases hv : v ≠ 0
    · have := ih ((v &&& 0x7F) ||| 0x80) (v >>> 7)
      simp only [tail_bytes, if_pos hv, List.length_cons]
      omega
    · simp [tail_bytes, hv]

theorem record_bytes_length (v : Nat) : (record_bytes v).length ≤ 10 := by
  unfold record_bytes
  split
  · exact (tail_bytes_length 9 _ _).2
  · simp

theorem record_bytes_zero : record_bytes 0 = [] := by
  simp [record_bytes]

theorem record_bytes_ne_nil (v : Nat) (hv : v ≠ 0) : 1 ≤ (record_bytes v).length := by
  simp only [record_bytes, if_pos hv]
  exact (tail_bytes_length 9 _ _).1

theorem value_to_write_lt (s : State) : value_to_write s < 2 ^ 64 :=
  Nat.mod_lt _ (by norm_num)

theorem write_record_storage (sample : Nat) (s : State) :
    (write_record sample s).signal_buffer.storage =
      closed_storage (s.signal_buffer.bytes : Int) 10 (value_to_write s) 0
        s.signal_buffer.storage s.stores := rfl

theorem write_record_bytes_eq (sample : Nat) (s : State) :
    (write_record sample s).signal_buffer.bytes =
      s.signal_buffer.bytes +
        (varint_loop (s.signal_buffer.bytes : Int) 10 (value_to_write s) 0
          s.signal_buffer.storage s.stores).2.1 := rfl

theorem write_record_bytes (sample : Nat) (s : State) :
    (write_record sample s).signal_buffer.bytes =
      s.signal_buffer.bytes + (record_bytes (value_to_write s)).length := by
  rw [write_record_bytes_eq]
  congr 1
  by_cases hv : value_to_write s ≠ 0
  · rw [varint_loop_succ _ 9 _ 0 _ _ hv]
    have := varint_loop_count (s.signal_buffer.bytes : Int) 9 (value_to_write s >>> 7) (0 + 1)
      ((value_to_write s &&& 0x7F) ||| 0x80)
      (Function.update s.signal_buffer.storage ((s.signal_buffer.bytes : Int) + (0 : Nat))
        ((value_to_write s &&& 0x7F) ||| 0x80))
      (((s.signal_buffer.bytes : Int) + (0 : Nat)) :: s.stores)
    simp only [record_bytes, if_pos hv]
    omega
  · have : value_to_write s = 0 := not_not.mp hv
    rw [this, varint_loop_zero, record_bytes_zero]
    rfl

theorem write_record_count (sample : Nat) (s : State) : (write_record sample s).count = 0 := rfl

theorem write_record_old (sample : Nat) (s : State) :
    (write_record sample s).old = sample &&& mask := rfl

theorem write_record_last_value (sample : Nat) (s : State) :
    (write_record sample s).signal_buffer.last_value = level_of sample := rfl

theorem write_record_last_duration (sample : Nat) (s : State) :
    (write_record sample s).signal_buffer.last_duration = s.signal_buffer.last_duration := rfl

theorem write_record_irq (sample : Nat) (s : State) :
    (write_record sample s).irq_enabled = s.irq_enabled := rfl

theorem level_of_lt (sample : Nat) : level_of sample < 16 := by
  unfold level_of
  split <;> split <;> split <;> split <;> decide

/-- After a record has been written the byte before the cursor is closed,
whatever the state before. -/
theorem write_record_closed (sample : Nat) (s : State) : CursorClosed (write_record sample s) := by
  intro _
  rw [write_record_storage, write_record_bytes_eq]
  unfold closed_storage
  have e : (((s.signal_buffer.bytes +
      (varint_loop (s.signal_buffer.bytes : Int) 10 (value_to_write s) 0
        s.signal_buffer.storage s.stores).2.1 : Nat) : Int) - 1) =
      (s.signal_buffer.bytes : Int) +
        (((varint_loop (s.signal_buffer.bytes : Int) 10 (value_to_write s) 0
          s.signal_buffer.storage s.stores).2.1 : Int) - 1) := by
    push_cast
    omega
  rw [e, Function.update_same]
  exact and_7F_lt _

/-- Bytes below the cursor keep their value when a record is written. -/
theorem write_record_below (sample : Nat) (s : State) (hc : CursorClosed s) (x : Int)
    (hx : x < (s.signal_buffer.bytes : Int)) (hx0 : 0 ≤ x) :
    (write_record sample s).signal_buffer.storage x = s.signal_buffer.storage x := by
  rw [write_record_storage]
  unfold closed_storage
  by_cases hl : x = (s.signal_buffer.bytes : Int) +
      (((varint_loop (s.signal_buffer.bytes : Int) 10 (value_to_write s) 0
        s.signal_buffer.storage s.stores).2.1 : Int) - 1)
  · rw [← hl, Function.update_same, varint_loop_frame _ _ _ _ _ _ x (by push_cast; omega)]
    have h0 := (varint_loop_le (s.signal_buffer.bytes : Int) 10 (value_to_write s) 0
      s.signal_buffer.storage s.stores).1
    have hx1 : x = (s.signal_buffer.bytes : Int) - 1 := by omega
    have hpos : 0 < s.signal_buffer.bytes := by omega
    have := hc hpos
    rw [hx1]
    exact and_7F_of_lt this
  · rw [Function.update_noteq hl, varint_loop_frame _ _ _ _ _ _ x (by push_cast; omega)]

/-- The bytes from `lo` to the cursor after a record has been written are those
before followed by the bytes of the record. -/
theorem write_record_slice (sample : Nat) (s : State) (lo : Nat)
    (hlo : lo ≤ s.signal_buffer.bytes) (hc : lo = s.signal_buffer.bytes ∨ CursorClosed s) :
    storage_slice (write_record sample s).signal_buffer.storage lo
        (write_record sample s).signal_buffer.bytes =
      storage_slice s.signal_buffer.storage lo s.signal_buffer.bytes ++
        record_bytes (value_to_write s) := by
  by_cases hv : value_to_write s ≠ 0
  · rw [write_record_storage, write_record_bytes_eq]
    unfold closed_storage
    rw [varint_loop_succ _ 9 _ 0 _ _ hv]
    have key := closed_storage_slice s.signal_buffer.bytes lo 9 (value_to_write s >>> 7) (0 + 1)
      s.signal_buffer.bytes
      (Function.update s.signal_buffer.storage ((s.signal_buffer.bytes : Int) + (0 : Nat))
        ((value_to_write s &&& 0x7F) ||| 0x80))
      (((s.signal_buffer.bytes : Int) + (0 : Nat)) :: s.stores) (by omega) hlo
    unfold closed_storage at key
    rw [key]
    have e0 : (s.signal_buffer.bytes : Int) + ((0 : Nat) : Int) = (s.signal_buffer.bytes : Int) := by
      simp
    rw [e0, Function.update_same]
    simp only [record_bytes, if_pos hv]
    congr 1
    apply storage_slice_congr
    intro j h1 h2
    apply Function.update_noteq
    omega
  · have hv0 : value_to_write s = 0 := not_not.mp hv
    rw [write_record_bytes, hv0, record_bytes_zero]
    simp only [List.length_nil, Nat.add_zero, List.append_nil]
    apply storage_slice_congr
    intro j h1 h2
    have hcc : CursorClosed s := by
      rcases hc with h | h
      · omega
      · exact h
    exact write_record_below sample s hcc (j : Int) (by omega) (by omega)
/-! ## Facts about the loop of `process_samples` -/

theorem count_add_eq (c r start : Nat) (h : start ≤ r) (hlt : c + (r - start) < 2 ^ 64) :
    count_add c r start = c + (r - start) := by
  unfold count_add SIGNALTIME_BITS
  norm_num at hlt ⊢
  omega

theorem process_loop_done (cap : Nat) (mem : Nat → Nat) (end_ n data : Nat) (s : State)
    (h : find_edge mem data end_ mask s.old = end_) :
    process_loop cap mem end_ (n + 1) data s = some (Exit.done, finished (counted s end_ data)) := by
  simp only [process_loop, h, if_true, finished, counted]

theorem process_loop_crash (cap : Nat) (mem : Nat → Nat) (end_ n data : Nat) (s : State)
    (h : find_edge mem data end_ mask s.old ≠ end_)
    (hr : mem (find_edge mem data end_ mask s.old) &&& 0xFF000000 ≠ 0) :
    process_loop cap mem end_ (n + 1) data s =
      some (Exit.crashed Fatal.lost_sync, counted s (find_edge mem data end_ mask s.old) data) := by
  simp only [process_loop, if_neg h, if_pos hr, counted]

theorem process_loop_throttle (cap : Nat) (mem : Nat → Nat) (end_ n data : Nat) (s : State)
    (h : find_edge mem data end_ mask s.old ≠ end_)
    (hr : ¬ mem (find_edge mem data end_ mask s.old) &&& 0xFF000000 ≠ 0)
    (hfull : cap < s.signal_buffer.bytes + 10) :
    process_loop cap mem end_ (n + 1) data s =
      some (Exit.throttled,
        irq_disabled (counted s (find_edge mem data end_ mask s.old) data)) := by
  simp only [process_loop, if_neg h, if_neg hr, if_pos hfull, irq_disabled, counted]

theorem process_loop_write (cap : Nat) (mem : Nat → Nat) (end_ n data : Nat) (s : State)
    (h : find_edge mem data end_ mask s.old ≠ end_)
    (hr : ¬ mem (find_edge mem data end_ mask s.old) &&& 0xFF000000 ≠ 0)
    (hfull : ¬ cap < s.signal_buffer.bytes + 10) :
    process_loop cap mem end_ (n + 1) data s =
      process_loop cap mem end_ n (find_edge mem data end_ mask s.old)
        (write_record (mem (find_edge mem data end_ mask s.old))
          (counted s (find_edge mem data end_ mask s.old) data)) := by
  simp only [process_loop, if_neg h, if_neg hr, if_neg hfull, counted]

/-- The loop ends within the iterations it is given: one more than the number
of samples left, and one fewer when the sample at `data` is not an edge. -/
theorem process_loop_returns (cap : Nat) (mem : Nat → Nat) (end_ : Nat) (hend : end_ % 4 = 0) :
    ∀ (n data : Nat) (s : State), data ≤ end_ →
      (end_ - data + 1 ≤ n ∨ (mem data &&& mask = s.old ∧ data < end_ ∧ end_ - data ≤ n)) →
      ∃ r, process_loop cap mem end_ n data s = some r := by
  intro n
  induction n with
  | zero =>
    intro data s hle h
    omega
  | succ n ih =>
    intro data s hle h
    obtain ⟨f_lo, f_hi, f_eq, f_ne⟩ := find_edge_spec mem data end_ mask s.old hend hle
    by_cases h1 : find_edge mem data end_ mask s.old = end_
    · exact ⟨_, process_loop_done cap mem end_ n data s h1⟩
    by_cases h2 : mem (find_edge mem data end_ mask s.old) &&& 0xFF000000 ≠ 0
    · exact ⟨_, process_loop_crash cap mem end_ n data s h1 h2⟩
    by_cases h3 : cap < s.signal_buffer.bytes + 10
    · exact ⟨_, process_loop_throttle cap mem end_ n data s h1 h2 h3⟩
    rw [process_loop_write cap mem end_ n data s h1 h2 h3]
    have hlt : find_edge mem data end_ mask s.old < end_ := by omega
    apply ih _ _ f_hi
    right
    refine ⟨by rw [write_record_old], hlt, ?_⟩
    rcases h with h | ⟨hm, _, hn⟩
    · omega
    · have : find_edge mem data end_ mask s.old ≠ data := by
        intro e
        have := f_ne hlt
        rw [e] at this
        exact this hm
      omega

/-- The loop only appends: the cursor does not move back and the bytes below
the cursor it started from keep their value. -/
theorem process_loop_append (cap : Nat) (mem : Nat → Nat) (end_ : Nat) :
    ∀ (n data : Nat) (s s1 : State) (e : Exit), CursorClosed s →
      process_loop cap mem end_ n data s = some (e, s1) →
      CursorClosed s1 ∧ s.signal_buffer.bytes ≤ s1.signal_buffer.bytes ∧
        ∀ x : Int, 0 ≤ x → x < (s.signal_buffer.bytes : Int) →
          s1.signal_buffer.storage x = s.signal_buffer.storage x := by
  intro n
  induction n with
  | zero =>
    intro data s s1 e _ h
    simp [process_loop] at h
  | succ n ih =>
    intro data s s1 e hc h
    by_cases h1 : find_edge mem data end_ mask s.old = end_
    · rw [process_loop_done cap mem end_ n data s h1] at h
      injection h with h
      injection h with _ hs
      subst hs
      exact ⟨hc, le_refl _, fun x _ _ => rfl⟩
    by_cases h2 : mem (find_edge mem data end_ mask s.old) &&& 0xFF000000 ≠ 0
    · rw [process_loop_crash cap mem end_ n data s h1 h2] at h
      injection h with h
      injection h with _ hs
      subst hs
      exact ⟨hc, le_refl _, fun x _ _ => rfl⟩
    by_cases h3 : cap < s.signal_buffer.bytes + 10
    · rw [process_loop_throttle cap mem end_ n data s h1 h2 h3] at h
      injection h with h
      injection h with _ hs
      subst hs
      exact ⟨hc, le_refl _, fun x _ _ => rfl⟩
    rw [process_loop_write cap mem end_ n data s h1 h2 h3] at h
    have hcs : CursorClosed (counted s (find_edge mem data end_ mask s.old) data) := hc
    obtain ⟨a, b, c⟩ := ih _ _ _ _ (write_record_closed _ _) h
    have hb := write_record_bytes (mem (find_edge mem data end_ mask s.old))
      (counted s (find_edge mem data end_ mask s.old) data)
    have hbs : (counted s (find_edge mem data end_ mask s.old) data).signal_buffer.bytes =
        s.signal_buffer.bytes := rfl
    refine ⟨a, by omega, fun x hx0 hx => ?_⟩
    rw [c x hx0 (by omega)]
    exact write_record_below _ _ hcs x (by rw [hbs]; exact hx) hx0

/-- The loop reads no sample at or after `end_`. -/
theorem process_loop_congr (cap : Nat) (mem mem1 : Nat → Nat) (end_ : Nat) (hend : end_ % 4 = 0)
    (hmem : ∀ j, j < end_ → mem1 j = mem j) :
    ∀ (n data : Nat) (s : State), data ≤ end_ →
      process_loop cap mem1 end_ n data s = process_loop cap mem end_ n data s := by
  intro n
  induction n with
  | zero => intro data s _; rfl
  | succ n ih =>
    intro data s hle
    have f := find_edge_spec mem data end_ mask s.old hend hle
    have f1 := find_edge_spec mem1 data end_ mask s.old hend hle
    have e := FirstEdge.unique hmem f f1
    obtain ⟨f_lo, f_hi, f_eq, f_ne⟩ := f
    by_cases h1 : find_edge mem data end_ mask s.old = end_
    · rw [process_loop_done cap mem end_ n data s h1,
        process_loop_done cap mem1 end_ n data s (e.trans h1)]
    have hlt : find_edge mem data end_ mask s.old < end_ := by omega
    have em := hmem _ hlt
    by_cases h2 : mem (find_edge mem data end_ mask s.old) &&& 0xFF000000 ≠ 0
    · rw [process_loop_crash cap mem end_ n data s h1 h2,
        process_loop_crash cap mem1 end_ n data s (by rw [e]; exact h1) (by rw [e, em]; exact h2), e]
    by_cases h3 : cap < s.signal_buffer.bytes + 10
    · rw [process_loop_throttle cap mem end_ n data s h1 h2 h3,
        process_loop_throttle cap mem1 end_ n data s (by rw [e]; exact h1)
          (by rw [e, em]; exact h2) h3, e]
    rw [process_loop_write cap mem end_ n data s h1 h2 h3,
      process_loop_write cap mem1 end_ n data s (by rw [e]; exact h1)
        (by rw [e, em]; exact h2) h3, e, em]
    exact ih _ _ f_hi
/-! ## Decoding what the loop appended -/

theorem value_fields (c l : Nat) (hc : c < 2 ^ 60) (hl : l < 16) :
    (((c <<< 4) % 2 ^ SIGNALTIME_BITS) + l) % 2 ^ 64 = c * 16 + l ∧
      (c * 16 + l) >>> 4 = c ∧ (c * 16 + l) &&& 15 = l := by
  have h15 := Nat.and_pow_two_sub_one_eq_mod (c * 16 + l) 4
  norm_num at h15 hc
  rw [Nat.shiftLeft_eq, Nat.shiftRight_eq_div_pow, h15]
  unfold SIGNALTIME_BITS
  norm_num
  omega

theorem decode_values_flatten (rest : List Nat) :
    ∀ vs : List Nat, (∀ v ∈ vs, v < 2 ^ 64) →
      reference_decode_values ((vs.map record_bytes).flatten ++ rest) 0 0 =
        vs.filter (fun v => decide (v ≠ 0)) ++ reference_decode_values rest 0 0 := by
  intro vs
  induction vs with
  | nil => intro _; simp
  | cons v vs ih =>
    intro h
    have hv := h v (List.mem_cons_self _ _)
    have ih1 := ih (fun w hw => h w (List.mem_cons_of_mem _ hw))
    by_cases h0 : v ≠ 0
    · simp only [List.map_cons, List.flatten_cons, List.append_assoc]
      rw [record_bytes_decode _ v h0 hv, ih1]
      simp [h0]
    · have hz : v = 0 := not_not.mp h0
      subst hz
      simp only [List.map_cons, List.flatten_cons, record_bytes_zero, List.nil_append]
      rw [ih1]
      simp

theorem sum_durations_filter (vs : List Nat) :
    ((vs.filter (fun v => decide (v ≠ 0))).map (fun v => v >>> 4)).sum =
      (vs.map (fun v => v >>> 4)).sum := by
  induction vs with
  | nil => rfl
  | cons v vs ih =>
    by_cases h0 : v ≠ 0
    · simp only [decide_not, ne_eq] at ih
      simp [h0, ih]
    · have hz : v = 0 := not_not.mp h0
      subst hz
      simpa using ih

/-- The sum of the durations in a decoded byte string. -/
theorem durations_of_flatten (vs : List Nat) (h : ∀ v ∈ vs, v < 2 ^ 64) :
    ((reference_decode ((vs.map record_bytes).flatten)).map Prod.fst).sum =
      (vs.map (fun v => v >>> 4)).sum := by
  have key := decode_values_flatten [] vs h
  simp only [List.append_nil, reference_decode_values] at key
  unfold reference_decode
  rw [key, List.map_map, ← sum_durations_filter]
  rfl

/-- What the loop appends when it reaches the end of the half: the records of
some values whose durations, with the counter left in `last_duration`, add up
to the counter on entry plus the samples scanned. -/
theorem process_loop_time (cap : Nat) (mem : Nat → Nat) (end_ : Nat) (hend : end_ % 4 = 0)
    (lo : Nat) :
    ∀ (n data : Nat) (s s1 : State), data ≤ end_ → s.signal_buffer.last_value < 16 →
      s.count + (end_ - data) < 2 ^ 60 → lo ≤ s.signal_buffer.bytes →
      (lo = s.signal_buffer.bytes ∨ CursorClosed s) →
      process_loop cap mem end_ n data s = some (Exit.done, s1) →
      ∃ vs : List Nat, (∀ v ∈ vs, v < 2 ^ 64) ∧
        storage_slice s1.signal_buffer.storage lo s1.signal_buffer.bytes =
          storage_slice s.signal_buffer.storage lo s.signal_buffer.bytes ++
            (vs.map record_bytes).flatten ∧
        (vs.map (fun v => v >>> 4)).sum + s1.signal_buffer.last_duration =
          s.count + (end_ - data) := by
  intro n
  induction n with
  | zero =>
    intro data s s1 _ _ _ _ _ h
    simp [process_loop] at h
  | succ n ih =>
    intro data s s1 hle hlv hcnt hlo hc h
    obtain ⟨f_lo, f_hi, f_eq, f_ne⟩ := find_edge_spec mem data end_ mask s.old hend hle
    have hca : count_add s.count (find_edge mem data end_ mask s.old) data =
        s.count + (find_edge mem data end_ mask s.old - data) := by
      apply count_add_eq _ _ _ f_lo
      norm_num at hcnt ⊢
      omega
    by_cases h1 : find_edge mem data end_ mask s.old = end_
    · rw [process_loop_done cap mem end_ n data s h1] at h
      injection h with h
      injection h with _ hs
      subst hs
      refine ⟨[], by simp, by simp [finished, counted], ?_⟩
      rw [h1] at hca
      simp [finished, counted, hca]
    by_cases h2 : mem (find_edge mem data end_ mask s.old) &&& 0xFF000000 ≠ 0
    · rw [process_loop_crash cap mem end_ n data s h1 h2] at h
      injection h with h
      injection h with he _
      exact absurd he (by decide)
    by_cases h3 : cap < s.signal_buffer.bytes + 10
    · rw [process_loop_throttle cap mem end_ n data s h1 h2 h3] at h
      injection h with h
      injection h with he _
      exact absurd he (by decide)
    rw [process_loop_write cap mem end_ n data s h1 h2 h3] at h
    have hb := write_record_bytes (mem (find_edge mem data end_ mask s.old))
      (counted s (find_edge mem data end_ mask s.old) data)
    have hbs : (counted s (find_edge mem data end_ mask s.old) data).signal_buffer.bytes =
        s.signal_buffer.bytes := rfl
    have hss : (counted s (find_edge mem data end_ mask s.old) data).signal_buffer.storage =
        s.signal_buffer.storage := rfl
    have hsl := write_record_slice (mem (find_edge mem data end_ mask s.old))
      (counted s (find_edge mem data end_ mask s.old) data) lo hlo hc
    have hvf := value_fields (s.count + (find_edge mem data end_ mask s.old - data))
      s.signal_buffer.last_value (by norm_num at hcnt ⊢; omega) hlv
    have hv : value_to_write (counted s (find_edge mem data end_ mask s.old) data) =
        (s.count + (find_edge mem data end_ mask s.old - data)) * 16 +
          s.signal_buffer.last_value := by
      show (((count_add s.count (find_edge mem data end_ mask s.old) data <<< 4) %
        2 ^ SIGNALTIME_BITS) + s.signal_buffer.last_value) % 2 ^ 64 = _
      rw [hca]
      exact hvf.1
    obtain ⟨vs, hvs, hslice, hsum⟩ := ih _ _ s1 f_hi (level_of_lt _)
      (by rw [write_record_count]; norm_num at hcnt ⊢; omega) (by omega)
      (Or.inr (write_record_closed _ _)) h
    rw [write_record_count] at hsum
    refine ⟨value_to_write (counted s (find_edge mem data end_ mask s.old) data) :: vs, ?_, ?_, ?_⟩
    · intro v hvm
      rcases List.mem_cons.mp hvm with rfl | hvm
      · exact value_to_write_lt _
      · exact hvs v hvm
    · rw [hslice, hsl, hbs, hss]
      simp
    · simp only [List.map_cons, List.sum_cons]
      rw [hv, hvf.2.1]
      omega
/-! ## Halves with a known first edge -/

theorem find_edge_eq (mem : Nat → Nat) (data end_ msk old r : Nat) (hend : end_ % 4 = 0)
    (hle : data ≤ end_) (h : FirstEdge mem data end_ msk old r) :
    find_edge mem data end_ msk old = r :=
  FirstEdge.unique (fun _ _ => rfl) h (find_edge_spec mem data end_ msk old hend hle)

/-- The first edge of a half that starts on a four-word boundary, given by its offset `k`. -/
theorem find_edge_at_offset (mem : Nat → Nat) (data old k : Nat) (hd : data % 4 = 0)
    (hk : k < ADC_FIFO_HALFSIZE) (hbefore : ∀ j, j < k → mem (data + j) &&& mask = old)
    (hedge : mem (data + k) &&& mask ≠ old) :
    find_edge mem data (data + ADC_FIFO_HALFSIZE) mask old = data + k := by
  have h128 : ADC_FIFO_HALFSIZE = 128 := rfl
  rw [h128] at hk ⊢
  apply find_edge_eq mem data (data + 128) mask old (data + k) (by omega) (by omega)
  refine ⟨by omega, by omega, fun j h1 h2 => ?_, fun _ => hedge⟩
  have := hbefore (j - data) (by omega)
  rwa [show data + (j - data) = j by omega] at this

/-- From an edge sample on, a half without further edge is scanned to its end. -/
theorem find_edge_to_end (mem : Nat → Nat) (data k : Nat) (hd : data % 4 = 0)
    (hk : k < ADC_FIFO_HALFSIZE)
    (hafter : ∀ j, k < j → j < ADC_FIFO_HALFSIZE →
      mem (data + j) &&& mask = mem (data + k) &&& mask) :
    find_edge mem (data + k) (data + ADC_FIFO_HALFSIZE) mask (mem (data + k) &&& mask) =
      data + ADC_FIFO_HALFSIZE := by
  have h128 : ADC_FIFO_HALFSIZE = 128 := rfl
  rw [h128] at hk hafter ⊢
  apply find_edge_eq mem (data + k) (data + 128) mask _ (data + 128) (by omega) (by omega)
  refine ⟨by omega, le_refl _, fun j h1 h2 => ?_, fun h => by omega⟩
  by_cases hj : j = data + k
  · rw [hj]
  · have := hafter (j - data) (by omega) (by omega)
    rwa [show data + (j - data) = j by omega] at this

/-- A half with exactly one edge, at offset `k`, with room for a record: one
record is written and the rest of the half is counted. -/
theorem process_samples_single_edge (cap : Nat) (mem : Nat → Nat) (data : Nat) (s : State)
    (k : Nat) (hd : data % 4 = 0) (hk : k < ADC_FIFO_HALFSIZE)
    (hbefore : ∀ j, j < k → mem (data + j) &&& mask = s.old)
    (hedge : mem (data + k) &&& mask ≠ s.old)
    (hafter : ∀ j, k < j → j < ADC_FIFO_HALFSIZE →
      mem (data + j) &&& mask = mem (data + k) &&& mask)
    (hres : mem (data + k) &&& 0xFF000000 = 0)
    (hroom : s.signal_buffer.bytes + 10 ≤ cap) :
    process_samples cap mem data s =
      some (Exit.done,
        finished (counted (write_record (mem (data + k)) (counted s (data + k) data))
          (data + ADC_FIFO_HALFSIZE) (data + k))) := by
  have e1 := find_edge_at_offset mem data s.old k hd hk hbefore hedge
  have e2 := find_edge_to_end mem data k hd hk hafter
  have h128 : ADC_FIFO_HALFSIZE = 128 := rfl
  unfold process_samples
  rw [show ADC_FIFO_HALFSIZE + 1 = 128 + 1 from rfl,
    process_loop_write cap mem _ 128 data s (by rw [e1]; omega) (by rw [e1, hres]; simp)
      (by omega), e1]
  rw [show (128 : Nat) = 127 + 1 from rfl,
    process_loop_done cap mem _ 127 (data + k) _ (by rw [write_record_old]; exact e2)]

/-- A half whose first edge is at offset `k`, with no room for a record. -/
theorem process_samples_full (cap : Nat) (mem : Nat → Nat) (data : Nat) (s : State)
    (k : Nat) (hd : data % 4 = 0) (hk : k < ADC_FIFO_HALFSIZE)
    (hbefore : ∀ j, j < k → mem (data + j) &&& mask = s.old)
    (hedge : mem (data + k) &&& mask ≠ s.old)
    (hres : mem (data + k) &&& 0xFF000000 = 0)
    (hfull : cap < s.signal_buffer.bytes + 10) :
    process_samples cap mem data s =
      some (Exit.throttled, irq_disabled (counted s (data + k) data)) := by
  have e1 := find_edge_at_offset mem data s.old k hd hk hbefore hedge
  have h128 : ADC_FIFO_HALFSIZE = 128 := rfl
  unfold process_samples
  rw [process_loop_throttle cap mem _ ADC_FIFO_HALFSIZE data s (by rw [e1]; omega)
    (by rw [e1, hres]; simp) hfull, e1]

/-- On either half `process_samples` ends: by reaching the end of the half, by
throttling, or in the fatal path. -/
theorem process_samples_returns (cap : Nat) (mem : Nat → Nat) (data : Nat) (s : State)
    (hd : data % 4 = 0) : ∃ r, process_samples cap mem data s = some r := by
  have h128 : ADC_FIFO_HALFSIZE = 128 := rfl
  unfold process_samples
  apply process_loop_returns cap mem _ (by omega) _ _ _ (by omega)
  left
  omega

theorem reachable_closed (cap : Nat) (s : State) (h : Reachable cap s) : CursorClosed s := by
  induction h with
  | init storage => intro h; exact absurd h (by simp [initial_state])
  | first_half mem s s1 e _ hp _ ih => exact (process_loop_append cap mem _ _ _ s s1 e ih hp).1
  | second_half mem s s1 e _ hp _ ih => exact (process_loop_append cap mem _ _ _ s s1 e ih hp).1
  | restart s _ _ => intro h; exact absurd h (by simp [start_capture])

theorem process_loop_level (cap : Nat) (mem : Nat → Nat) (end_ : Nat) :
    ∀ (n data : Nat) (s s1 : State) (e : Exit), s.signal_buffer.last_value < 16 →
      process_loop cap mem end_ n data s = some (e, s1) →
      s1.signal_buffer.last_value < 16 := by
  intro n
  induction n with
  | zero =>
    intro data s s1 e _ h
    simp [process_loop] at h
  | succ n ih =>
    intro data s s1 e hl h
    by_cases h1 : find_edge mem data end_ mask s.old = end_
    · rw [process_loop_done cap mem end_ n data s h1] at h
      injection h with h
      injection h with _ hs
      subst hs
      exact hl
    by_cases h2 : mem (find_edge mem data end_ mask s.old) &&& 0xFF000000 ≠ 0
    · rw [process_loop_crash cap mem end_ n data s h1 h2] at h
      injection h with h
      injection h with _ hs
      subst hs
      exact hl
    by_cases h3 : cap < s.signal_buffer.bytes + 10
    · rw [process_loop_throttle cap mem end_ n data s h1 h2 h3] at h
      injection h with h
      injection h with _ hs
      subst hs
      exact hl
    rw [process_loop_write cap mem end_ n data s h1 h2 h3] at h
    exact ih _ _ s1 e (level_of_lt _) h

/-- In every reachable state `last_value` is a 4-bit level. -/
theorem reachable_level (cap : Nat) (s : State) (h : Reachable cap s) :
    s.signal_buffer.last_value < 16 := by
  induction h with
  | init storage => simp [initial_state]
  | first_half mem s s1 e _ hp _ ih => exact process_loop_level cap mem _ _ _ s s1 e ih hp
  | second_half mem s s1 e _ hp _ ih => exact process_loop_level cap mem _ _ _ s s1 e ih hp
  | restart s _ ih => exact ih

/-! ## A half without edge -/

theorem count_add_mod (c r start : Nat) (h : start ≤ r) :
    count_add c r start = (c + (r - start)) % 2 ^ 64 := by
  unfold count_add SIGNALTIME_BITS
  norm_num
  omega

/-- A half without edge is scanned to its end and nothing is written. -/
theorem process_samples_idle (cap : Nat) (mem : Nat → Nat) (data : Nat) (s : State)
    (hd : data % 4 = 0)
    (hidle : ∀ j, j < ADC_FIFO_HALFSIZE → mem (data + j) &&& mask = s.old) :
    process_samples cap mem data s =
      some (Exit.done, finished (counted s (data + ADC_FIFO_HALFSIZE) data)) := by
  have h128 : ADC_FIFO_HALFSIZE = 128 := rfl
  unfold process_samples
  apply process_loop_done
  rw [h128] at hidle ⊢
  apply find_edge_eq mem data (data + 128) mask _ (data + 128) (by omega) (by omega)
  refine ⟨by omega, le_refl _, fun j h1 h2 => ?_, fun h => by omega⟩
  have := hidle (j - data) (by omega)
  rwa [show data + (j - data) = j by omega] at this

/-- On a half without edge `process_samples` leaves `bytes` and the storage as
they are, makes no store, and sets `last_duration` to the counter `count` of
`process_samples` plus 128 (modulo `2 ^ 64`); this is the previous
`last_duration` plus 128 when the counter equals it, as it does at power-up and
after a call that reached the end of a half. -/
theorem idle_half_adds_to_counter (cap : Nat) (mem : Nat → Nat) (data : Nat) (s : State)
    (hd : data = 0 ∨ data = ADC_FIFO_HALFSIZE)
    (hidle : ∀ j, j < ADC_FIFO_HALFSIZE → mem (data + j) &&& mask = s.old) :
    ∃ s1, process_samples cap mem data s = some (Exit.done, s1) ∧
      s1.signal_buffer.bytes = s.signal_buffer.bytes ∧
      s1.signal_buffer.storage = s.signal_buffer.storage ∧
      s1.stores = s.stores ∧
      s1.signal_buffer.last_duration = (s.count + ADC_FIFO_HALFSIZE) % 2 ^ 64 ∧
      s1.count = s1.signal_buffer.last_duration ∧
      (s.count = s.signal_buffer.last_duration → s.count + ADC_FIFO_HALFSIZE < 2 ^ 64 →
        s1.signal_buffer.last_duration = s.signal_buffer.last_duration + ADC_FIFO_HALFSIZE) := by
  have hd4 : data % 4 = 0 := by rcases hd with h | h <;> simp [h, ADC_FIFO_HALFSIZE]
  have hca : count_add s.count (data + ADC_FIFO_HALFSIZE) data =
      (s.count + ADC_FIFO_HALFSIZE) % 2 ^ 64 := by
    rw [count_add_mod _ _ _ (by omega)]
    congr 2
    omega
  refine ⟨_, process_samples_idle cap mem data s hd4 hidle, rfl, rfl, rfl, hca, rfl, ?_⟩
  intro h1 h2
  show count_add s.count (data + ADC_FIFO_HALFSIZE) data = _
  rw [hca, Nat.mod_eq_of_lt h2, h1]

/-! ## The record of a single edge -/

theorem shr7_lt (v n : Nat) (hv : v < 128 ^ (n + 1)) : v >>> 7 < 128 ^ n := by
  rw [Nat.shiftRight_eq_div_pow]
  apply Nat.div_lt_of_lt_mul
  rw [pow_succ] at hv
  norm_num
  omega

theorem tail_bytes_size : ∀ (n prev v : Nat), v < 128 ^ n →
    v < 128 ^ ((tail_bytes n prev v).length - 1) ∧
      (2 ≤ (tail_bytes n prev v).length → 128 ^ ((tail_bytes n prev v).length - 2) ≤ v) := by
  intro n
  induction n with
  | zero =>
    intro prev v hv
    simp [tail_bytes] at hv ⊢
    exact hv
  | succ n ih =>
    intro prev v hv
    by_cases h0 : v ≠ 0
    · obtain ⟨a, b⟩ := ih ((v &&& 0x7F) ||| 0x80) (v >>> 7) (shr7_lt v n hv)
      have hl := (tail_bytes_length n ((v &&& 0x7F) ||| 0x80) (v >>> 7)).1
      simp only [tail_bytes, if_pos h0, List.length_cons, Nat.add_sub_cancel]
      have hdiv : v >>> 7 = v / 128 := Nat.shiftRight_eq_div_pow v 7
      generalize (tail_bytes n ((v &&& 0x7F) ||| 0x80) (v >>> 7)).length = L at a b hl ⊢
      rw [hdiv] at a b
      obtain ⟨m, rfl⟩ : ∃ m, L = m + 1 := ⟨L - 1, by omega⟩
      simp only [Nat.add_sub_cancel] at a
      constructor
      · rw [pow_succ]
        omega
      · intro _
        cases m with
        | zero =>
          simp
          omega
        | succ m =>
          have b2 := b (by omega)
          rw [show m + 1 + 1 - 2 = m by omega] at b2
          rw [show m + 1 + 1 + 1 - 2 = m + 1 by omega, pow_succ]
          omega
    · have hz : v = 0 := not_not.mp h0
      subst hz
      simp [tail_bytes]

/-- The record of a non-zero 64-bit value has the least number of 7-bit groups
that hold the value. -/
theorem record_bytes_size (v : Nat) (hv : v ≠ 0) (hlt : v < 2 ^ 64) :
    128 ^ ((record_bytes v).length - 1) ≤ v ∧ v < 128 ^ (record_bytes v).length := by
  have h9 : v >>> 7 < 128 ^ 9 := by
    apply shr7_lt
    norm_num at hlt ⊢
    omega
  obtain ⟨a, b⟩ := tail_bytes_size 9 ((v &&& 0x7F) ||| 0x80) (v >>> 7) h9
  have hl := (tail_bytes_length 9 ((v &&& 0x7F) ||| 0x80) (v >>> 7)).1
  simp only [record_bytes, if_pos hv]
  have hdiv : v >>> 7 = v / 128 := Nat.shiftRight_eq_div_pow v 7
  generalize (tail_bytes 9 ((v &&& 0x7F) ||| 0x80) (v >>> 7)).length = L at a b hl ⊢
  rw [hdiv] at a b
  obtain ⟨m, rfl⟩ : ∃ m, L = m + 1 := ⟨L - 1, by omega⟩
  simp only [Nat.add_sub_cancel] at a ⊢
  constructor
  · cases m with
    | zero => simp; omega
    | succ m =>
      have b2 := b (by omega)
      rw [show m + 1 + 1 - 2 = m by omega] at b2
      rw [pow_succ]
      omega
  · rw [pow_succ]
    omega

/-- For a half with exactly one edge, at offset `k`, with room in the buffer, a
counter that stays below `2 ^ 60` and a 4-bit level: `process_samples` appends
the bytes `record_bytes v` of the value `v = ((count + k) << 4) | last_value`
at `storage[bytes ..]`, advances `bytes` by their number and sets `last_value`
to the level of the edge sample. When `v` is not zero these bytes decode to
`v` and are as few as 7-bit groups allow; when `v` is zero there are none. -/
theorem single_edge_record (cap : Nat) (mem : Nat → Nat) (data : Nat) (s : State)
    (k : Nat) (hd : data = 0 ∨ data = ADC_FIFO_HALFSIZE) (hk : k < ADC_FIFO_HALFSIZE)
    (hbefore : ∀ j, j < k → mem (data + j) &&& mask = s.old)
    (hedge : mem (data + k) &&& mask ≠ s.old)
    (hafter : ∀ j, k < j → j < ADC_FIFO_HALFSIZE →
      mem (data + j) &&& mask = mem (data + k) &&& mask)
    (hres : mem (data + k) &&& 0xFF000000 = 0)
    (hroom : s.signal_buffer.bytes + 10 ≤ cap)
    (hcnt : s.count + k < 2 ^ 60) (hlv : s.signal_buffer.last_value < 16) :
    ∃ s1, process_samples cap mem data s = some (Exit.done, s1) ∧
      s1.signal_buffer.bytes =
        s.signal_buffer.bytes +
          (record_bytes ((s.count + k) * 16 + s.signal_buffer.last_value)).length ∧
      storage_slice s1.signal_buffer.storage s.signal_buffer.bytes s1.signal_buffer.bytes =
        record_bytes ((s.count + k) * 16 + s.signal_buffer.last_value) ∧
      s1.signal_buffer.last_value = level_of (mem (data + k)) ∧
      ((s.count + k) * 16 + s.signal_buffer.last_value ≠ 0 →
        reference_decode_values (record_bytes ((s.count + k) * 16 + s.signal_buffer.last_value)) 0 0 =
          [(s.count + k) * 16 + s.signal_buffer.last_value] ∧
        128 ^ ((record_bytes ((s.count + k) * 16 + s.signal_buffer.last_value)).length - 1) ≤
          (s.count + k) * 16 + s.signal_buffer.last_value ∧
        (s.count + k) * 16 + s.signal_buffer.last_value <
          128 ^ (record_bytes ((s.count + k) * 16 + s.signal_buffer.last_value)).length) ∧
      ((s.count + k) * 16 + s.signal_buffer.last_value = 0 →
        record_bytes ((s.count + k) * 16 + s.signal_buffer.last_value) = []) := by
  have hd4 : data % 4 = 0 := by rcases hd with h | h <;> simp [h, ADC_FIFO_HALFSIZE]
  have hvf := value_fields (s.count + k) s.signal_buffer.last_value hcnt hlv
  have hca : count_add s.count (data + k) data = s.count + k := by
    rw [count_add_eq _ _ _ (by omega) (by norm_num at hcnt ⊢; omega)]
    omega
  have hv : value_to_write (counted s (data + k) data) =
      (s.count + k) * 16 + s.signal_buffer.last_value := by
    show (((count_add s.count (data + k) data <<< 4) % 2 ^ SIGNALTIME_BITS) +
      s.signal_buffer.last_value) % 2 ^ 64 = _
    rw [hca]
    exact hvf.1
  have hlt : (s.count + k) * 16 + s.signal_buffer.last_value < 2 ^ 64 := by
    rw [← hv]
    exact value_to_write_lt _
  have hb := write_record_bytes (mem (data + k)) (counted s (data + k) data)
  have hsl := write_record_slice (mem (data + k)) (counted s (data + k) data)
    s.signal_buffer.bytes (le_refl _) (Or.inl rfl)
  rw [hv] at hb hsl
  refine ⟨_, process_samples_single_edge cap mem data s k hd4 hk hbefore hedge hafter hres hroom,
    hb, ?_, rfl, ?_, ?_⟩
  · have e : storage_slice (counted s (data + k) data).signal_buffer.storage
        s.signal_buffer.bytes (counted s (data + k) data).signal_buffer.bytes = [] :=
      storage_slice_self _ _
    rw [e, List.nil_append] at hsl
    exact hsl
  · intro hne
    have hdec := record_bytes_decode [] _ hne hlt
    simp only [List.append_nil, reference_decode_values] at hdec
    exact ⟨hdec, record_bytes_size _ hne hlt⟩
  · intro hz
    rw [hz, record_bytes_zero]

/-! ## Round trip of streams without a zero value -/

theorem encode_record_eq (d : Nat × Nat) (hd : d.1 < 2 ^ 60) (hl : d.2 < 16) :
    encode_record d = record_bytes (d.1 * 16 + d.2) := by
  have hvf := value_fields d.1 d.2 hd hl
  unfold encode_record
  simp only
  rw [write_record_slice 0 _ 0 (le_refl _) (Or.inl rfl)]
  simp only [storage_slice_self, List.nil_append]
  congr 1
  exact hvf.1

/-- Decoding the encoder's byte string of a sequence of pairs (durations below
`2 ^ 60`, 4-bit levels) gives back the pairs in order, without the pairs
`(0, 0)`, for which the encoder writes no byte. -/
theorem round_trip_without_zero (ds : List (Nat × Nat))
    (h : ∀ d ∈ ds, d.1 < 2 ^ 60 ∧ d.2 < 16) :
    reference_decode (encode_records ds) = ds.filter (fun d => decide (d ≠ (0, 0))) := by
  induction ds with
  | nil => rfl
  | cons d ds ih =>
    have hd := h d (List.mem_cons_self _ _)
    have ih1 := ih (fun w hw => h w (List.mem_cons_of_mem _ hw))
    have hvf := value_fields d.1 d.2 hd.1 hd.2
    have hlt : d.1 * 16 + d.2 < 2 ^ 64 := by
      have := hd.1
      have := hd.2
      norm_num at *
      omega
    unfold reference_decode encode_records at ih1 ⊢
    simp only [List.map_cons, List.flatten_cons]
    rw [encode_record_eq d hd.1 hd.2]
    by_cases h0 : d.1 * 16 + d.2 ≠ 0
    · rw [record_bytes_decode _ _ h0 hlt]
      have hne : d ≠ (0, 0) := by
        intro e
        rw [e] at h0
        simp at h0
      have hf : List.filter (fun d => decide (d ≠ (0, 0))) (d :: ds) =
          d :: List.filter (fun d => decide (d ≠ (0, 0))) ds :=
        List.filter_cons_of_pos (decide_eq_true hne)
      rw [hf]
      simp only [List.map_cons, ih1, hvf.2.1, hvf.2.2]
    · have hz : d.1 * 16 + d.2 = 0 := not_not.mp h0
      have he : d = (0, 0) := by
        have h1 : d.1 = 0 := by omega
        have h2 : d.2 = 0 := by omega
        exact Prod.ext h1 h2
      have hf : List.filter (fun d => decide (d ≠ (0, 0))) (d :: ds) =
          List.filter (fun d => decide (d ≠ (0, 0))) ds :=
        List.filter_cons_of_neg (by simp [he])
      rw [hz, record_bytes_zero, List.nil_append, ih1, hf]

/-! ## Where `process_samples` stores -/

theorem varint_loop_stores (p : Int) :
    ∀ (n v i : Nat) (st : Int → Nat) (log : List Int) (x : Int),
      x ∈ (varint_loop p n v i st log).2.2 →
      x ∈ log ∨ (p + i ≤ x ∧ x < p + ((varint_loop p n v i st log).2.1 : Int)) := by
  intro n
  induction n with
  | zero => intro v i st log x h; left; simpa [varint_loop] using h
  | succ n ih =>
    intro v i st log x h
    by_cases hv : v ≠ 0
    · rw [varint_loop_succ p n v i st log hv] at h ⊢
      have hle := (varint_loop_le p n (v >>> 7) (i + 1)
        (Function.update st (p + i) ((v &&& 0x7F) ||| 0x80)) ((p + i) :: log)).1
      rcases ih _ _ _ _ x h with h1 | h1
      · rcases List.mem_cons.mp h1 with h2 | h2
        · right
          omega
        · left
          exact h2
      · right
        push_cast at h1
        omega
    · have hz : v = 0 := not_not.mp hv
      subst hz
      rw [varint_loop_zero] at h
      left
      exact h

/-- The stores of `write_record` go to offsets from `bytes - 1` up to the new cursor. -/
theorem write_record_stores (sample : Nat) (s : State) (x : Int)
    (h : x ∈ (write_record sample s).stores) :
    x ∈ s.stores ∨ ((s.signal_buffer.bytes : Int) - 1 ≤ x ∧
      x < ((write_record sample s).signal_buffer.bytes : Int)) := by
  have hb := write_record_bytes_eq sample s
  have hle := (varint_loop_le (s.signal_buffer.bytes : Int) 10 (value_to_write s) 0
    s.signal_buffer.storage s.stores).1
  have hst : (write_record sample s).stores =
      ((s.signal_buffer.bytes : Int) +
        (((varint_loop (s.signal_buffer.bytes : Int) 10 (value_to_write s) 0
          s.signal_buffer.storage s.stores).2.1 : Int) - 1)) ::
        (varint_loop (s.signal_buffer.bytes : Int) 10 (value_to_write s) 0
          s.signal_buffer.storage s.stores).2.2 := rfl
  rw [hst] at h
  rw [hb]
  rcases List.mem_cons.mp h with h1 | h1
  · right
    push_cast
    omega
  · rcases varint_loop_stores _ _ _ _ _ _ x h1 with h2 | h2
    · left
      exact h2
    · right
      push_cast at h2 ⊢
      omega

theorem process_loop_stores (cap : Nat) (mem : Nat → Nat) (end_ : Nat) :
    ∀ (n data : Nat) (s s1 : State) (e : Exit), s.signal_buffer.bytes ≤ cap →
      process_loop cap mem end_ n data s = some (e, s1) →
      s1.signal_buffer.bytes ≤ cap ∧
        ∀ x ∈ s1.stores, x ∈ s.stores ∨ ((s.signal_buffer.bytes : Int) - 1 ≤ x ∧ x < (cap : Int)) := by
  intro n
  induction n with
  | zero =>
    intro data s s1 e _ h
    simp [process_loop] at h
  | succ n ih =>
    intro data s s1 e hc h
    by_cases h1 : find_edge mem data end_ mask s.old = end_
    · rw [process_loop_done cap mem end_ n data s h1] at h
      injection h with h
      injection h with _ hs
      subst hs
      exact ⟨hc, fun x hx => Or.inl hx⟩
    by_cases h2 : mem (find_edge mem data end_ mask s.old) &&& 0xFF000000 ≠ 0
    · rw [process_loop_crash cap mem end_ n data s h1 h2] at h
      injection h with h
      injection h with _ hs
      subst hs
      exact ⟨hc, fun x hx => Or.inl hx⟩
    by_cases h3 : cap < s.signal_buffer.bytes + 10
    · rw [process_loop_throttle cap mem end_ n data s h1 h2 h3] at h
      injection h with h
      injection h with _ hs
      subst hs
      exact ⟨hc, fun x hx => Or.inl hx⟩
    rw [process_loop_write cap mem end_ n data s h1 h2 h3] at h
    have hb := write_record_bytes (mem (find_edge mem data end_ mask s.old))
      (counted s (find_edge mem data end_ mask s.old) data)
    have hl := record_bytes_length
      (value_to_write (counted s (find_edge mem data end_ mask s.old) data))
    have hbs : (counted s (find_edge mem data end_ mask s.old) data).signal_buffer.bytes =
        s.signal_buffer.bytes := rfl
    obtain ⟨a, b⟩ := ih _ _ s1 e (by omega) h
    refine ⟨a, fun x hx => ?_⟩
    rcases b x hx with hx1 | hx1
    · rcases write_record_stores _ _ x hx1 with hx2 | hx2
      · left
        exact hx2
      · right
        rw [hbs] at hx2
        omega
    · right
      omega

/-- From a state with `0 < bytes <= capacity`, for either half, every store of
`process_samples` goes to an offset in `[0, capacity)`, and `bytes <= capacity`
holds when it ends. From `bytes = 0` the stores go to offsets in
`[-1, capacity)`. -/
theorem stores_stay_in_buffer (cap : Nat) (mem : Nat → Nat) (data : Nat) (s s1 : State)
    (e : Exit) (hcap : s.signal_buffer.bytes ≤ cap)
    (hrun : process_samples cap mem data s = some (e, s1)) :
    s1.signal_buffer.bytes ≤ cap ∧
    (∀ x ∈ s1.stores, x ∈ s.stores ∨ (-1 ≤ x ∧ x < (cap : Int))) ∧
    (0 < s.signal_buffer.bytes → ∀ x ∈ s1.stores, x ∈ s.stores ∨ (0 ≤ x ∧ x < (cap : Int))) := by
  obtain ⟨a, b⟩ := process_loop_stores cap mem _ _ data s s1 e hcap hrun
  refine ⟨a, fun x hx => ?_, fun hpos x hx => ?_⟩
  · rcases b x hx with h | h
    · exact Or.inl h
    · exact Or.inr ⟨by omega, h.2⟩
  · rcases b x hx with h | h
    · exact Or.inl h
    · exact Or.inr ⟨by omega, h.2⟩
/-! ## The edge scanner -/

/-- Claim C1, refuted as stated: called on the sub-range `[1, 2)` of a buffer whose
sample 3 has bit 7 set, `find_edge` returns position 3, beyond `end`, although
the only sample of the range equals the reference; with sample 3 clear it
returns 2, so the result depends on a sample after `end`. -/
theorem find_edge_overruns_unaligned_end :
    (fun i : Nat => if i = 3 then 0x80 else 0) 1 &&& mask = 0 ∧
    find_edge (fun i : Nat => if i = 3 then 0x80 else 0) 1 2 mask 0 = 3 ∧
    ¬ find_edge (fun i : Nat => if i = 3 then 0x80 else 0) 1 2 mask 0 ≤ 2 ∧
    find_edge (fun _ : Nat => 0) 1 2 mask 0 = 2 := by
  decide

/-- Claim C1, amended: when `end` lies a multiple of four words from the base of
`adc_fifo` (as the end of either half does) and `data <= end`, for every mask
and reference `find_edge` returns a position in `[data, end]` such that every
sample before it in the range equals the reference under the mask and, when the
position is before `end`, the sample there differs; the result does not depend
on samples at or after `end`. -/
theorem find_edge_aligned_end (mem : Nat → Nat) (data end_ msk old : Nat)
    (hend : end_ % 4 = 0) (hle : data ≤ end_) :
    (data ≤ find_edge mem data end_ msk old ∧ find_edge mem data end_ msk old ≤ end_) ∧
    (∀ j, data ≤ j → j < find_edge mem data end_ msk old → mem j &&& msk = old) ∧
    (find_edge mem data end_ msk old < end_ →
      mem (find_edge mem data end_ msk old) &&& msk ≠ old) ∧
    (∀ mem1 : Nat → Nat, (∀ j, j < end_ → mem1 j = mem j) →
      find_edge mem1 data end_ msk old = find_edge mem data end_ msk old) := by
  have f := find_edge_spec mem data end_ msk old hend hle
  refine ⟨⟨f.1, f.2.1⟩, f.2.2.1, f.2.2.2, fun mem1 hmem => ?_⟩
  exact FirstEdge.unique hmem f (find_edge_spec mem1 data end_ msk old hend hle)

/-- Claim C1, amended, at the sub-range `[1, 4)` of a buffer whose sample 3 has bit 7 set. -/
theorem find_edge_aligned_end_witness :
    (4 % 4 = 0 ∧ 1 ≤ 4) ∧
    ((1 ≤ find_edge (fun i : Nat => if i = 3 then 0x80 else 0) 1 4 mask 0 ∧
      find_edge (fun i : Nat => if i = 3 then 0x80 else 0) 1 4 mask 0 ≤ 4) ∧
    (∀ j, 1 ≤ j → j < find_edge (fun i : Nat => if i = 3 then 0x80 else 0) 1 4 mask 0 →
      (fun i : Nat => if i = 3 then 0x80 else 0) j &&& mask = 0) ∧
    (find_edge (fun i : Nat => if i = 3 then 0x80 else 0) 1 4 mask 0 < 4 →
      (fun i : Nat => if i = 3 then 0x80 else 0)
        (find_edge (fun i : Nat => if i = 3 then 0x80 else 0) 1 4 mask 0) &&& mask ≠ 0) ∧
    (∀ mem1 : Nat → Nat,
      (∀ j, j < 4 → mem1 j = (fun i : Nat => if i = 3 then 0x80 else 0) j) →
      find_edge mem1 1 4 mask 0 =
        find_edge (fun i : Nat => if i = 3 then 0x80 else 0) 1 4 mask 0)) :=
  ⟨⟨by decide, by decide⟩,
    find_edge_aligned_end (fun i : Nat => if i = 3 then 0x80 else 0) 1 4 mask 0
      (by decide) (by decide)⟩

/-! ## The encoder on one half -/

/-- Claim C2, evaluated where it fails: in the state after power-up and `start_capture`
(counter, `last_duration`, level and cursor zero, 64 bytes of room) a half
whose samples all have bit 7 set has its single edge at offset 0 and the value
to write is 0; `process_samples` returns with `bytes` still 0, so no byte was
appended, and with `last_value` 1. -/
theorem zero_value_record_has_no_byte :
    (process_samples 64 (fun _ => 0x80) 0 (start_capture (initial_state (fun _ => 0)))).map
      (fun r => (r.1, r.2.signal_buffer.bytes, r.2.signal_buffer.last_value)) =
      some (Exit.done, 0, 1) := by
  decide

/-- Claim C3, refuted as stated: after power-up and `start_capture` a first half with its
single edge at offset 5 leaves `last_duration = 123`, which is `128 - 5` and
not `128 - 5 - 1`. -/
theorem last_duration_counts_edge_sample :
    (process_samples 64 (fun i => if i < 5 then 0 else 0x80) 0
      (start_capture (initial_state (fun _ => 0)))).map
      (fun r => (r.1, r.2.signal_buffer.last_duration)) = some (Exit.done, 123) ∧
    123 ≠ ADC_FIFO_HALFSIZE - 5 - 1 := by
  decide

/-- Claim C3, amended: for either half, if its only edge is at offset `k < 128`, the
reserved bits of the edge sample are clear and at least 10 bytes are free, then
`process_samples` returns having reached the end of the half with
`last_duration = 128 - k`: the edge sample is the first sample of the new
interval. -/
theorem single_edge_last_duration (cap : Nat) (mem : Nat → Nat) (data : Nat) (s : State)
    (k : Nat) (hd : data = 0 ∨ data = ADC_FIFO_HALFSIZE) (hk : k < ADC_FIFO_HALFSIZE)
    (hbefore : ∀ j, j < k → mem (data + j) &&& mask = s.old)
    (hedge : mem (data + k) &&& mask ≠ s.old)
    (hafter : ∀ j, k < j → j < ADC_FIFO_HALFSIZE →
      mem (data + j) &&& mask = mem (data + k) &&& mask)
    (hres : mem (data + k) &&& 0xFF000000 = 0)
    (hroom : s.signal_buffer.bytes + 10 ≤ cap) :
    ∃ s1, process_samples cap mem data s = some (Exit.done, s1) ∧
      s1.signal_buffer.last_duration = ADC_FIFO_HALFSIZE - k := by
  have hd4 : data % 4 = 0 := by rcases hd with h | h <;> simp [h, ADC_FIFO_HALFSIZE]
  refine ⟨_, process_samples_single_edge cap mem data s k hd4 hk hbefore hedge hafter hres hroom,
    ?_⟩
  show count_add 0 (data + ADC_FIFO_HALFSIZE) (data + k) = ADC_FIFO_HALFSIZE - k
  have h128 : ADC_FIFO_HALFSIZE = 128 := rfl
  rw [h128] at hk ⊢
  rw [count_add_eq 0 _ _ (by omega) (by norm_num; omega)]
  omega

/-- Claim C3, amended, at the second half with its single edge at offset 5. -/
theorem single_edge_last_duration_witness :
    ∃ s1, process_samples 64 (fun i => if i < 133 then 0 else 0x80) ADC_FIFO_HALFSIZE
        (initial_state (fun _ => 0)) = some (Exit.done, s1) ∧
      s1.signal_buffer.last_duration = ADC_FIFO_HALFSIZE - 5 :=
  single_edge_last_duration 64 (fun i => if i < 133 then 0 else 0x80) ADC_FIFO_HALFSIZE
    (initial_state (fun _ => 0)) 5 (Or.inr rfl) (by decide)
    (by intro j hj; have : ADC_FIFO_HALFSIZE + j < 133 := by simp [ADC_FIFO_HALFSIZE]; omega
        simp [this, initial_state])
    (by decide)
    (by intro j h1 h2
        have h : ¬ ADC_FIFO_HALFSIZE + j < 133 := by simp [ADC_FIFO_HALFSIZE]; omega
        have h5 : ¬ ADC_FIFO_HALFSIZE + 5 < 133 := by decide
        simp only [h, h5, if_false])
    (by decide) (by decide)

/-- Claim C4, evaluated where it fails: after power-up, `start_capture` and one half
without edge, a second `start_capture` resets `last_duration` and `bytes` but
not the counter of `process_samples`, which stays 128; the first half without
edge after that restart then stores `last_duration = 256` instead of `0 + 128`,
and the second one 384 instead of 256, with zero bytes written. -/
theorem restart_keeps_counter :
    (process_samples 64 (fun _ => 0) 0 (start_capture (initial_state (fun _ => 0)))).map
      (fun r0 => (r0.1, (start_capture r0.2).signal_buffer.last_duration,
        (start_capture r0.2).signal_buffer.bytes, (start_capture r0.2).count)) =
      some (Exit.done, 0, 0, 128) ∧
    ((process_samples 64 (fun _ => 0) 0 (start_capture (initial_state (fun _ => 0)))).bind
      (fun r0 =>
        (process_samples 64 (fun _ => 0) 0 (start_capture r0.2)).bind
          (fun r1 =>
            (process_samples 64 (fun _ => 0) ADC_FIFO_HALFSIZE r1.2).map
              (fun r2 => (r1.2.signal_buffer.last_duration,
                r2.2.signal_buffer.last_duration, r2.2.signal_buffer.bytes))))) =
      some (256, 384, 0) := by
  decide

/-! ## The record stream -/

/-- Claim C5, evaluated where it fails: for the pair `(duration 0, level 0)` the
serialization writes no byte, so the stream of that one pair is the stream of
no pair and decodes to no pair, and a stream of three pairs with it in the
middle decodes to two. -/
theorem round_trip_loses_zero_record :
    encode_records [(0, 0)] = encode_records [] ∧
    reference_decode (encode_records [(0, 0)]) = [] ∧
    reference_decode (encode_records [(5, 1), (0, 0), (7, 2)]) = [(5, 1), (7, 2)] := by
  decide

/-! ## Backpressure -/

/-- Claim C6, refuted as stated: with 4 bytes free and a half whose first sample is an
edge with a reserved bit set, `process_samples` ends in the fatal path for lost
synchronization; it does not throttle and the interrupt stays enabled. -/
theorem full_buffer_sync_loss_crashes :
    (process_samples 64 (fun _ => 0x01000080) 0
      { old := 0, count := 0
        signal_buffer := { last_duration := 0, bytes := 60, last_value := 0, storage := fun _ => 0 }
        irq_enabled := true, stores := [] }).map (fun r => (r.1, r.2.irq_enabled)) =
      some (Exit.crashed Fatal.lost_sync, true) := by
  decide

/-- Claim C6, amended: for every state with fewer than 10 bytes free and either half
whose first edge sample (at offset `k`) has its reserved bits clear,
`process_samples` disables the capture interrupt and returns without writing:
`signal_buffer` (bytes, storage, last_value, last_duration) is as before the
call and no store to the storage was made. -/
theorem backpressure_is_atomic (cap : Nat) (mem : Nat → Nat) (data : Nat) (s : State)
    (k : Nat) (hd : data = 0 ∨ data = ADC_FIFO_HALFSIZE) (hk : k < ADC_FIFO_HALFSIZE)
    (hbefore : ∀ j, j < k → mem (data + j) &&& mask = s.old)
    (hedge : mem (data + k) &&& mask ≠ s.old)
    (hres : mem (data + k) &&& 0xFF000000 = 0)
    (hfull : (cap : Int) - (s.signal_buffer.bytes : Int) < 10) :
    ∃ s1, process_samples cap mem data s = some (Exit.throttled, s1) ∧
      s1.irq_enabled = false ∧
      s1.signal_buffer.bytes = s.signal_buffer.bytes ∧
      s1.signal_buffer.storage = s.signal_buffer.storage ∧
      s1.signal_buffer.last_value = s.signal_buffer.last_value ∧
      s1.signal_buffer.last_duration = s.signal_buffer.last_duration ∧
      s1.stores = s.stores := by
  have hd4 : data % 4 = 0 := by rcases hd with h | h <;> simp [h, ADC_FIFO_HALFSIZE]
  exact ⟨_, process_samples_full cap mem data s k hd4 hk hbefore hedge hres (by omega),
    rfl, rfl, rfl, rfl, rfl, rfl⟩

/-- Claim C6, amended, at a state with 4 bytes free and a half with its first edge at offset 2. -/
theorem backpressure_is_atomic_witness :
    ((64 : Int) - (60 : Int) < 10) ∧
    ∃ s1, process_samples 64 (fun i => if i < 2 then 0 else 0x80) 0
        { old := 0, count := 7
          signal_buffer :=
            { last_duration := 7, bytes := 60, last_value := 0, storage := fun _ => 0 }
          irq_enabled := true, stores := [] } = some (Exit.throttled, s1) ∧
      s1.irq_enabled = false ∧
      s1.signal_buffer.bytes = 60 ∧
      s1.signal_buffer.storage = (fun _ => 0) ∧
      s1.signal_buffer.last_value = 0 ∧
      s1.signal_buffer.last_duration = 7 ∧
      s1.stores = [] :=
  ⟨by decide,
    backpressure_is_atomic 64 (fun i => if i < 2 then 0 else 0x80) 0
      { old := 0, count := 7
        signal_buffer :=
          { last_duration := 7, bytes := 60, last_value := 0, storage := fun _ => 0 }
        irq_enabled := true, stores := [] } 2 (Or.inl rfl) (by decide)
      (by intro j hj; simp [hj])
      (by decide) (by decide) (by decide)⟩

/-! ## Bounds of the stores -/

/-- Claim C7, evaluated where it fails: in the state after power-up and `start_capture`
(`bytes = 0`, capacity 64, the memory around the array holding `0xFF`) and a
first half with all samples `0x80`, the edge at offset 0 has the value 0 to
write, the loop stores nothing, and the single store `process_samples` makes,
the one that clears the top bit at `p[i - 1]`, goes to offset `-1`, before the
storage array, where it changes `0xFF` into `0x7F`. -/
theorem zero_value_stores_before_buffer :
    (process_samples 64 (fun _ => 0x80) 0 (start_capture (initial_state (fun _ => 0xFF)))).map
      (fun r => (r.1, r.2.stores, r.2.signal_buffer.storage (-1), r.2.signal_buffer.bytes)) =
      some (Exit.done, [-1], 0x7F, 0) ∧
    (start_capture (initial_state (fun _ => 0xFF))).signal_buffer.bytes ≤ 64 ∧
    ¬ ((0 : Int) ≤ -1) := by
  decide

/-! ## The encoded buffer is append-only -/

/-- Claim C8, evaluated where it fails: the state after power-up and `start_capture` is
reachable, its cursor `bytes` is 0 and nothing has been stored yet; on a first
half whose samples all have bit 15 set the edge at offset 0 has the value 0 to
write, and the one store `process_samples` makes, `p[i - 1] &= 0x7F` with
`i = 0`, goes to offset `-1`, which is below the old cursor. -/
theorem zero_value_stores_below_cursor :
    Reachable 64 (start_capture (initial_state (fun _ => 0))) ∧
    (start_capture (initial_state (fun _ => 0))).signal_buffer.bytes = 0 ∧
    (start_capture (initial_state (fun _ => 0))).stores = [] ∧
    (process_samples 64 (fun _ => 0x8000) 0 (start_capture (initial_state (fun _ => 0)))).map
      (fun r => (r.1, r.2.stores, r.2.signal_buffer.bytes)) = some (Exit.done, [-1], 0) ∧
    ¬ (((start_capture (initial_state (fun _ => 0))).signal_buffer.bytes : Int) ≤ -1) :=
  ⟨Reachable.restart _ (Reachable.init _), rfl, rfl, by decide, by decide⟩

/-- The part of the append-only property that holds of the values: in every
reachable state and for either half, `process_samples` ends, and when it has
ended the cursor `bytes` is not smaller than before and every byte of
`storage[0 .. old bytes)` has the value it had before the call. The stores
themselves are bounded by `process_loop_stores`: none goes below the old
cursor minus one. -/
theorem encoded_buffer_append_only (cap : Nat) (mem : Nat → Nat) (data : Nat) (s : State)
    (hs : Reachable cap s) (hd : data = 0 ∨ data = ADC_FIFO_HALFSIZE) :
    (∃ r, process_samples cap mem data s = some r) ∧
    ∀ (e : Exit) (s1 : State), process_samples cap mem data s = some (e, s1) →
      s.signal_buffer.bytes ≤ s1.signal_buffer.bytes ∧
      ∀ x : Int, 0 ≤ x → x < (s.signal_buffer.bytes : Int) →
        s1.signal_buffer.storage x = s.signal_buffer.storage x := by
  have hd4 : data % 4 = 0 := by rcases hd with h | h <;> simp [h, ADC_FIFO_HALFSIZE]
  refine ⟨process_samples_returns cap mem data s hd4, fun e s1 h => ?_⟩
  exact (process_loop_append cap mem _ _ _ s s1 e (reachable_closed cap s hs) h).2

/-- The values below the cursor are kept, at the state reached from power-up
by a first half with an edge at offset 5, for a second half with an edge at
offset 3. -/
theorem encoded_buffer_append_only_witness :
    (∃ r, process_samples 64 (fun i => if i < 131 then 0x80 else 0) ADC_FIFO_HALFSIZE
      (finished (counted (write_record 0x80 (counted (initial_state (fun _ => 0)) 5 0)) 128 5))
        = some r) ∧
    ∀ (e : Exit) (s1 : State),
      process_samples 64 (fun i => if i < 131 then 0x80 else 0) ADC_FIFO_HALFSIZE
        (finished (counted (write_record 0x80 (counted (initial_state (fun _ => 0)) 5 0)) 128 5))
          = some (e, s1) →
      (finished (counted (write_record 0x80 (counted (initial_state (fun _ => 0)) 5 0))
          128 5)).signal_buffer.bytes ≤ s1.signal_buffer.bytes ∧
      ∀ x : Int, 0 ≤ x →
        x < ((finished (counted (write_record 0x80 (counted (initial_state (fun _ => 0)) 5 0))
          128 5)).signal_buffer.bytes : Int) →
        s1.signal_buffer.storage x =
          (finished (counted (write_record 0x80 (counted (initial_state (fun _ => 0)) 5 0))
            128 5)).signal_buffer.storage x :=
  encoded_buffer_append_only 64 (fun i => if i < 131 then 0x80 else 0) ADC_FIFO_HALFSIZE
    (finished (counted (write_record 0x80 (counted (initial_state (fun _ => 0)) 5 0)) 128 5))
    (Reachable.first_half (fun i => if i < 5 then 0 else 0x80) (initial_state (fun _ => 0)) _
      Exit.done (Reachable.init (fun _ => 0))
      (process_samples_single_edge 64 (fun i => if i < 5 then 0 else 0x80) 0
        (initial_state (fun _ => 0)) 5 (by decide) (by decide)
        (by intro j hj; simp [hj, initial_state])
        (by decide)
        (by intro j h1 h2
            have h : ¬ 0 + j < 5 := by omega
            simp only [h, if_false]
            decide)
        (by decide) (by decide))
      (Or.inl rfl))
    (Or.inr rfl)

/-! ## The interrupt handler -/

/-- Claim C9, refuted as stated: with the half-complete and full-complete flags both pending
(no transfer error) after power-up and `start_capture`, and a first half with an edge at offset 5, the
handler ends in the fatal path for an overflow, but only after the encoder has
run on the first half: one byte has been appended and `last_value` and
`last_duration` have changed. -/
theorem overrun_dispatch_runs_encoder :
    (DMA1_Channel4_IRQHandler 64 (fun i => if i < 5 then 0 else 0x80)
      { teif4 := false, htif4 := true, tcif4 := true }
      { teif4 := false, htif4 := false, tcif4 := false }
      { teif4 := false, htif4 := false, tcif4 := false }
      (start_capture (initial_state (fun _ => 0)))).map
      (fun r => (r.1, r.2.2.signal_buffer.bytes, r.2.2.signal_buffer.storage 0,
        r.2.2.signal_buffer.last_value, r.2.2.signal_buffer.last_duration)) =
      some (Exit.crashed Fatal.overflow_in_htif, 1, 0x50, 1, 123) := by
  decide

/-- Claim C9, amended: whenever the half-complete and full-complete flags are both pending
at dispatch, whatever flags the hardware raises meanwhile, the handler ends in
the fatal path and never runs the encoder on the second half (its result does
not depend on the samples of the second half). With a transfer error pending
too the encoder state is unchanged; otherwise the state is the one the encoder
leaves after running on the first half. -/
theorem overrun_dispatch_is_fatal (cap : Nat) (mem : Nat → Nat) (isr hw1 hw2 : Flags)
    (s : State) (hh : isr.htif4 = true) (hc : isr.tcif4 = true) :
    (∃ why f s1, DMA1_Channel4_IRQHandler cap mem isr hw1 hw2 s =
        some (Exit.crashed why, f, s1) ∧
      (isr.teif4 = true → why = Fatal.dma_transfer_error ∧ s1 = s) ∧
      (isr.teif4 = false → ∃ e, process_samples cap mem 0 s = some (e, s1))) ∧
    (∀ mem1 : Nat → Nat, (∀ j, j < ADC_FIFO_HALFSIZE → mem1 j = mem j) →
      DMA1_Channel4_IRQHandler cap mem1 isr hw1 hw2 s =
        DMA1_Channel4_IRQHandler cap mem isr hw1 hw2 s) := by
  constructor
  · by_cases ht : isr.teif4 = true
    · refine ⟨Fatal.dma_transfer_error, isr, s, by simp [DMA1_Channel4_IRQHandler, ht],
        fun _ => ⟨rfl, rfl⟩, fun h => by simp [ht] at h⟩
    · obtain ⟨r, hr⟩ := process_samples_returns cap mem 0 s (by decide)
      obtain ⟨e, s1⟩ := r
      cases e with
      | crashed why =>
        exact ⟨why, isr.raise hw1, s1, by simp [DMA1_Channel4_IRQHandler, ht, hh, hr],
          fun h => absurd h ht, fun _ => ⟨_, hr⟩⟩
      | done =>
        exact ⟨Fatal.overflow_in_htif, Flags.raise { isr.raise hw1 with htif4 := false } hw2, s1,
          by simp [DMA1_Channel4_IRQHandler, ht, hh, hr, Flags.raise, hc],
          fun h => absurd h ht, fun _ => ⟨_, hr⟩⟩
      | throttled =>
        exact ⟨Fatal.overflow_in_htif, Flags.raise { isr.raise hw1 with htif4 := false } hw2, s1,
          by simp [DMA1_Channel4_IRQHandler, ht, hh, hr, Flags.raise, hc],
          fun h => absurd h ht, fun _ => ⟨_, hr⟩⟩
  · intro mem1 hmem
    have e : process_samples cap mem1 0 s = process_samples cap mem 0 s := by
      unfold process_samples
      exact process_loop_congr cap mem mem1 _ (by decide)
        (fun j hj => hmem j (by simpa using hj)) _ 0 s (by omega)
    simp only [DMA1_Channel4_IRQHandler, hh, e, if_true]

/-- Claim C9, amended, after power-up and `start_capture` with both flags pending, the
full-complete flag raised once more meanwhile, and an edge at offset 5 of the
first half. -/
theorem overrun_dispatch_is_fatal_witness :
    ((true = true) ∧ (true = true)) ∧
    ((∃ why f s1, DMA1_Channel4_IRQHandler 64 (fun i => if i < 5 then 0 else 0x80)
        { teif4 := false, htif4 := true, tcif4 := true }
        { teif4 := false, htif4 := false, tcif4 := false }
        { teif4 := false, htif4 := false, tcif4 := true }
        (start_capture (initial_state (fun _ => 0))) = some (Exit.crashed why, f, s1) ∧
      (false = true → why = Fatal.dma_transfer_error ∧
        s1 = start_capture (initial_state (fun _ => 0))) ∧
      (false = false → ∃ e, process_samples 64 (fun i => if i < 5 then 0 else 0x80) 0
        (start_capture (initial_state (fun _ => 0))) = some (e, s1))) ∧
    (∀ mem1 : Nat → Nat,
      (∀ j, j < ADC_FIFO_HALFSIZE → mem1 j = (fun i => if i < 5 then 0 else 0x80) j) →
      DMA1_Channel4_IRQHandler 64 mem1
          { teif4 := false, htif4 := true, tcif4 := true }
          { teif4 := false, htif4 := false, tcif4 := false }
          { teif4 := false, htif4 := false, tcif4 := true }
          (start_capture (initial_state (fun _ => 0))) =
        DMA1_Channel4_IRQHandler 64 (fun i => if i < 5 then 0 else 0x80)
          { teif4 := false, htif4 := true, tcif4 := true }
          { teif4 := false, htif4 := false, tcif4 := false }
          { teif4 := false, htif4 := false, tcif4 := true }
          (start_capture (initial_state (fun _ => 0))))) :=
  ⟨⟨rfl, rfl⟩,
    overrun_dispatch_is_fatal 64 (fun i => if i < 5 then 0 else 0x80)
      { teif4 := false, htif4 := true, tcif4 := true }
      { teif4 := false, htif4 := false, tcif4 := false }
      { teif4 := false, htif4 := false, tcif4 := true }
      (start_capture (initial_state (fun _ => 0))) rfl rfl⟩

/-! ## Conservation of time -/

/-- Claim C10: for either half and every encoder state with a 4-bit level and carried
counter `count`, `count + 128 < 2 ^ 60`, on which `process_samples` runs to the
end of the half, the durations of the records it appended (decoded from
`storage[old bytes .. new bytes)`) and the final `last_duration` add up to
`count + 128`. -/
theorem time_is_conserved (cap : Nat) (mem : Nat → Nat) (data : Nat) (s s1 : State)
    (hd : data = 0 ∨ data = ADC_FIFO_HALFSIZE) (hlv : s.signal_buffer.last_value < 16)
    (hc : s.count + ADC_FIFO_HALFSIZE < 2 ^ 60)
    (hrun : process_samples cap mem data s = some (Exit.done, s1)) :
    ((reference_decode (storage_slice s1.signal_buffer.storage s.signal_buffer.bytes
        s1.signal_buffer.bytes)).map Prod.fst).sum + s1.signal_buffer.last_duration =
      s.count + ADC_FIFO_HALFSIZE := by
  have hd4 : data % 4 = 0 := by rcases hd with h | h <;> simp [h, ADC_FIFO_HALFSIZE]
  obtain ⟨vs, hvs, hslice, hsum⟩ := process_loop_time cap mem (data + ADC_FIFO_HALFSIZE)
    (by simp [ADC_FIFO_HALFSIZE]; omega) s.signal_buffer.bytes (ADC_FIFO_HALFSIZE + 1) data s s1
    (by omega) hlv (by simpa using hc) (le_refl _) (Or.inl rfl) hrun
  rw [storage_slice_self, List.nil_append] at hslice
  rw [hslice, durations_of_flatten vs hvs, hsum]
  simp

/-- Claim C10, at a state with carried counter 7 and level 2 and a first half with edges at
offsets 0, 5 and 9. -/
theorem time_is_conserved_witness :
    ((2 : Nat) < 16 ∧ 7 + ADC_FIFO_HALFSIZE < 2 ^ 60) ∧
    ∃ s1,
      process_samples 64 (fun i => if i < 5 then 0x20000 else if i < 9 then 0x80 else 0x8000) 0
        { old := 0, count := 7
          signal_buffer :=
            { last_duration := 7, bytes := 3, last_value := 2, storage := fun _ => 0 }
          irq_enabled := true, stores := [] } = some (Exit.done, s1) ∧
      ((reference_decode (storage_slice s1.signal_buffer.storage 3
          s1.signal_buffer.bytes)).map Prod.fst).sum + s1.signal_buffer.last_duration =
        7 + ADC_FIFO_HALFSIZE :=
  ⟨⟨by decide, by decide⟩, _, rfl,
    time_is_conserved 64
      (fun i => if i < 5 then 0x20000 else if i < 9 then 0x80 else 0x8000) 0
      { old := 0, count := 7
        signal_buffer := { last_duration := 7, bytes := 3, last_value := 2, storage := fun _ => 0 }
        irq_enabled := true, stores := [] }
      _ (Or.inl rfl) (by decide) (by decide) rfl⟩
end DsoQuadLogic
